import Mathlib

/-!
# Verification of the miniChemistry reaction-prediction and balancing core

This file is a shallow embedding, in Lean 4, of the core of the
`miniChemistry` Python package: the particle data model
(`Core/Substances/{Particle,Simple,Ion,Molecule,IonGroup}.py`), the
coefficient solver (`Core/Tools/Equalizer.py`), the reaction-prediction
dispatcher (`Core/Tools/ReactionPredictionTool/predict.py`), the
molecular restrictions
(`Core/ReactionMechanisms/MolecularMechanisms/Restrictions.py`), the
nitrate-decomposition mechanism
(`Core/ReactionMechanisms/MolecularMechanisms/ExceptionalMechanisms.py`),
and the metal-activity classifier
(`Core/Database/MetalActivitySeries.py`).

Modelling conventions:

* Python `dict`s (element composition, coefficient dictionaries) are
  modelled as insertion-ordered association lists; `dict` equality is
  key-set plus value equality, ignoring order, exactly as in Python.
* Python exceptions are modelled with `Except`: each typed exception of
  the package is a constructor of `Exc`.
* Machine arithmetic: Python `int` is `Int`/`Nat`; sympy `Rational` is
  Lean's `Rat` (both are exact); the relative-electronegativity values
  (short decimal literals well below float precision, compared only
  among each other) are embedded as the corresponding exact rationals.
* Python's `hash` of a string is modelled by the string itself: the
  code always hashes a particle's formula string, so two particles get
  the same hash bucket exactly when the hashed strings coincide
  (string-hash collisions between distinct strings are ignored).
* Data that the repository loads from resource files that are not part
  of the sources (the solubility-table database, the metal-activity
  series list) is modelled as oracle parameters; everything else is
  translated from the Python sources.
-/

set_option maxRecDepth 4000

namespace MiniChem

/-- The typed exceptions of the package (plus the Python built-in
errors that the embedded code paths can hit). -/
inductive Exc where
  | weakElectrolyteNotFound
  | lessActiveMetalReagent
  | wrongMetalActivity
  | wrongSimpleClass
  | wrongIon
  | cannotPredictProducts
  | cannotEquateReaction
  | substanceNotFound
  | ionNotFound
  | elementIsNotMetal
  | unknownActivityMetal
  | notSupposedToHappen
  | chargeError
  | multipleElementCation
  | unsupportedSubstanceSize
  | pyAttributeError
  | pyTypeError
  | pyIndexError
  deriving DecidableEq, Repr

/-- The three "restriction failure" exceptions of the error-handling
taxonomy (spec section 7). -/
def isRestrictionExc : Exc → Bool
  | .weakElectrolyteNotFound => true
  | .lessActiveMetalReagent => true
  | .wrongMetalActivity => true
  | _ => false

/-- A chemical element, as in `Core/Database/ptable.py`.  The source
stores the group as a string such as `"1A"` and indexes its first
character (the digit) and second character (the letter); we store the
two components directly.  Membership in the `pt.METALS` tuple is a
static per-element fact in the source and is recorded in the `metal`
field. -/
structure Element where
  symbol : String
  atomicNumber : Nat
  period : Nat
  groupNum : Nat
  groupLetter : Char
  ren : Rat
  metal : Bool
  deriving DecidableEq, Repr

/- The elements of the periodic table used in this development, with
the data of `ptable.py`. -/

def elH : Element := ⟨"H", 1, 1, 1, 'A', 21/10, false⟩

def elC : Element := ⟨"C", 6, 2, 4, 'A', 255/100, false⟩

def elN : Element := ⟨"N", 7, 2, 5, 'A', 304/100, false⟩

def elO : Element := ⟨"O", 8, 2, 6, 'A', 344/100, false⟩

def elF : Element := ⟨"F", 9, 2, 7, 'A', 398/100, false⟩

def elNa : Element := ⟨"Na", 11, 3, 1, 'A', 93/100, true⟩

def elS : Element := ⟨"S", 16, 3, 6, 'A', 258/100, false⟩

def elCl : Element := ⟨"Cl", 17, 3, 7, 'A', 316/100, false⟩

def elK : Element := ⟨"K", 19, 4, 1, 'A', 82/100, true⟩

def elCa : Element := ⟨"Ca", 20, 4, 2, 'A', 1, true⟩

def elFe : Element := ⟨"Fe", 26, 4, 8, 'B', 183/100, true⟩

def elNi : Element := ⟨"Ni", 28, 4, 8, 'B', 191/100, true⟩

def elCu : Element := ⟨"Cu", 29, 4, 1, 'B', 19/10, true⟩

def elZn : Element := ⟨"Zn", 30, 4, 2, 'B', 165/100, true⟩

def elBr : Element := ⟨"Br", 35, 4, 7, 'A', 296/100, false⟩

def elAg : Element := ⟨"Ag", 47, 5, 1, 'B', 193/100, true⟩

def elI : Element := ⟨"I", 53, 5, 7, 'A', 266/100, false⟩

def elAu : Element := ⟨"Au", 79, 6, 1, 'B', 254/100, true⟩

/-- A composition: the Python `dict` from element to atom count,
modelled as an insertion-ordered association list with unique keys. -/
abbrev Comp := List (Element × Nat)

/-- Keyed lookup in a composition (Python `dict.get`). -/
def compLookup (c : Comp) (e : Element) : Option Nat :=
  (c.find? (fun kv => kv.1 = e)).map (·.2)

/-- `dict.__eq__`: equal key sets with equal values, insertion order
irrelevant. -/
def pyDictEq (c1 c2 : Comp) : Bool :=
  c1.all (fun kv => compLookup c2 kv.1 == some kv.2) &&
    c2.all (fun kv => compLookup c1 kv.1 == some kv.2)

/-- `com[el] += n` / `com[el] = n` on a composition dict: update in
place if the key is present (keeping insertion order), else append. -/
def compAdd (com : Comp) (e : Element) (n : Nat) : Comp :=
  if com.any (fun kv => kv.1 = e) then
    com.map (fun kv => if kv.1 = e then (kv.1, kv.2 + n) else kv)
  else
    com ++ [(e, n)]

/-- An ion's data: composition and (nonzero) charge.  Mirrors the
fields of `Ion` from `Core/Substances/Ion.py`. -/
structure IonData where
  comp : Comp
  charge : Int
  deriving DecidableEq, Repr

/-- `Molecule._indices`: given the two ion charges, take the least
common multiple of their absolute values and divide it by each
absolute value.  (The source computes `int(n / charge)` with exact
float division of small integers, which equals the Nat division below
because the divisor divides `n`.) -/
def indices (cationCharge anionCharge : Int) : Nat × Nat :=
  let n := cationCharge.natAbs
  let m := anionCharge.natAbs
  let l := Nat.lcm n m
  (l / n, l / m)

/-- `Molecule.composition`'s helper `update_composition`: add an ion's
composition, each count multiplied by the ion's index, into an
accumulating dict. -/
def updateComposition (i : Comp) (ionInd : Nat) (com : Comp) : Comp :=
  i.foldl (fun acc kv => compAdd acc kv.1 (kv.2 * ionInd)) com

/-- `Molecule.composition`: the cation's composition (scaled by the
cation index) merged with the anion's (scaled by the anion index). -/
def moleculeComp (cat an : IonData) : Comp :=
  updateComposition an.comp (indices cat.charge an.charge).2
    (updateComposition cat.comp (indices cat.charge an.charge).1 [])

/-- `IonGroup._get_composition`: the two ion compositions merged
*without* the indices (the source does not scale by them). -/
def ionGroupComp (cat an : IonData) : Comp :=
  updateComposition an.comp 1 (updateComposition cat.comp 1 [])

/-- The particle hierarchy: `Simple`, `Ion`, `Molecule`, `IonGroup`
from `Core/Substances/`, plus `ElementaryParticle` from
`Core/ElementaryParticle.py` (accepted by the Equalizer).  A
`molecule` stores its two ions; an `iongroup` stores its two ions and
the two stored indices. -/
inductive Particle where
  | simple (element : Element) (index : Nat)
  | ion (data : IonData)
  | molecule (cat an : IonData)
  | iongroup (cat an : IonData) (cationIndex anionIndex : Nat)
  | elementary (symbol : String) (charge : Int)
  deriving DecidableEq, Repr

namespace Particle

/-- `Particle.composition` for each concrete class.  An
`ElementaryParticle` has no composition attribute; the Equalizer
special-cases it to contribute no atoms, which the empty composition
reproduces. -/
def comp : Particle → Comp
  | simple e i => [(e, i)]
  | ion d => d.comp
  | molecule cat an => moleculeComp cat an
  | iongroup cat an _ _ => ionGroupComp cat an
  | elementary _ _ => []

/-- `Particle.charge` for each concrete class (`IonGroup` recomputes
its charge from the stored ions and indices). -/
def charge : Particle → Int
  | simple _ _ => 0
  | ion d => d.charge
  | molecule _ _ => 0
  | iongroup cat an ci ai => cat.charge * ci + an.charge * ai
  | elementary _ q => q

/-- Is the particle an `ElementaryParticle` (not a `Particle` subclass)? -/
def isElementary : Particle → Bool
  | elementary _ _ => true
  | _ => false

end Particle

/-- `Particle.__eq__`: equal composition dicts and equal charges.
Comparing a `Particle` with an `ElementaryParticle` (either way
round) hits an `AttributeError` / formula mismatch in the source and
yields `False`; two `ElementaryParticle`s compare by formula, i.e. by
symbol and charge. -/
def peq (p q : Particle) : Bool :=
  match p, q with
  | .elementary s1 q1, .elementary s2 q2 => s1 == s2 && q1 == q2
  | .elementary _ _, _ => false
  | _, .elementary _ _ => false
  | _, _ => pyDictEq p.comp q.comp && p.charge == q.charge

/-- `Ion.__eq__` as used on stored ion data (composition + charge). -/
def ionEq (a b : IonData) : Bool :=
  pyDictEq a.comp b.comp && a.charge == b.charge

/- The special ions of `Ion.create_special_ions` and the special
molecule of `Molecule.create_special_molecules`. -/

/-- `Ion.proton = Ion({pt.H: 1}, 1)`. -/
def protonD : IonData := ⟨[(elH, 1)], 1⟩

/-- `Ion.hydroxide = Ion({pt.O: 1, pt.H: 1}, -1)`. -/
def hydroxideD : IonData := ⟨[(elO, 1), (elH, 1)], -1⟩

/-- `Ion.oxygen = Ion({pt.O: 1}, -2)`. -/
def oxygenD : IonData := ⟨[(elO, 1)], -2⟩

/-- `Molecule.water = Molecule(Ion.proton, Ion.hydroxide)`. -/
def waterP : Particle := .molecule protonD hydroxideD

/- Formula rendering (`Simple.formula`, `Ion.formula`,
`Molecule.formula`, `IonGroup.formula`).  These are what the
`__hash__` implementations feed to Python's `hash`. -/

/-- `Ion.formula(remove_charge=True)`: concatenate element symbols with
their indices, omitting an index of 1, in dict insertion order. -/
def ionFormulaNoCharge (c : Comp) : String :=
  c.foldl (fun acc kv =>
    acc ++ kv.1.symbol ++ (if kv.2 == 1 then "" else toString kv.2)) ""

/-- `Ion.formula(remove_charge=False)`: append the `(charge)` suffix. -/
def ionFormula (d : IonData) : String :=
  ionFormulaNoCharge d.comp ++ "(" ++ toString d.charge ++ ")"

/-- Number of distinct elements of an ion (`Particle.size` of an ion,
whose composition has unique keys). -/
def ionSize (d : IonData) : Nat := d.comp.length

/-- `Molecule._parentheses`: render one ion with its index inside a
molecule.  An index below 1 raises `NotSupposedToHappen` in the
source; it is unreachable for constructor-built molecules and is
rendered as the empty string here. -/
def parenthesesStr (d : IonData) (index : Nat) : String :=
  if 1 < index then
    if 1 < ionSize d then
      "(" ++ ionFormulaNoCharge d.comp ++ ")" ++ toString index
    else
      ionFormulaNoCharge d.comp ++ toString index
  else if index == 1 then
    ionFormulaNoCharge d.comp
  else
    ""

/-- `Molecule.formula`: the fixed literal `"H2O"` for any molecule equal
to `Molecule.water`, otherwise the two parenthesized ion renderings. -/
def moleculeFormula (cat an : IonData) : String :=
  if peq (.molecule cat an) waterP then "H2O"
  else
    parenthesesStr cat (indices cat.charge an.charge).1 ++
      parenthesesStr an (indices cat.charge an.charge).2

/-- `Simple.formula`: symbol plus index, omitting an index of 1. -/
def simpleFormula (e : Element) (i : Nat) : String :=
  e.symbol ++ (if i == 1 then "" else toString i)

/-- `IonGroup.formula(remove_charge=False)`. -/
def ionGroupFormula (cat an : IonData) (ci ai : Nat) : String :=
  parenthesesStr cat ci ++ parenthesesStr an ai ++
    "(" ++ toString (cat.charge * ci + an.charge * ai) ++ ")"

/-- The string each class's `__hash__` feeds to Python's `hash`
(`hash(self.formula())`; ions and ion groups keep the charge suffix,
elementary particles hash `symbol(charge)`). -/
def hashStr : Particle → String
  | .simple e i => simpleFormula e i
  | .ion d => ionFormula d
  | .molecule cat an => moleculeFormula cat an
  | .iongroup cat an ci ai => ionGroupFormula cat an ci ai
  | .elementary s q => s ++ "(" ++ toString q ++ ")"

/- Constructor-level validation (`Utilities/Checks.py` and the class
`__init__` methods), modelled as smart constructors returning
`Except`. -/

/-- `Ion.__init__` followed by the checks of `Particle.__init__`:
reject a zero charge (`charge_check(neutrality=False)`), then reject a
positively charged multi-element composition
(`single_element_cation_check`); `Ion.from_string` additionally
consults the solubility database (`_exists`), abstracted by the
`dbHas` oracle argument. -/
def mkIon (dbHas : Comp → Int → Bool) (c : Comp) (q : Int) (db : Bool) :
    Except Exc IonData :=
  if q = 0 then .error .chargeError
  else if 0 < q && 1 < c.length then .error .multipleElementCation
  else if db && !dbHas c q then .error .ionNotFound
  else .ok ⟨c, q⟩

/-- `Molecule.__init__`: compute the two indices with
`Molecule._indices`, then `charge_check(..., neutrality=True)` the
weighted charge sum. -/
def mkMolecule (cat an : IonData) : Except Exc Particle :=
  if cat.charge * (indices cat.charge an.charge).1 +
      an.charge * (indices cat.charge an.charge).2 = 0 then
    .ok (.molecule cat an)
  else .error .chargeError

/- The special simple substances (`Simple.create_special_simples`). -/

/-- The elements of the `Simple.specials` tuple
`(hydrogen, chlorine, nitrogen, oxygen, bromine, iodine)` — note that
the source omits fluorine from the tuple. -/
def specialsElements : List Element := [elH, elCl, elN, elO, elBr, elI]

/-- `Simple.specials`, in tuple order. -/
def specialsP : List Particle :=
  [.simple elH 2, .simple elCl 2, .simple elN 2, .simple elO 2,
   .simple elBr 2, .simple elI 2]

/-- The `simple()` conversion applied to an element
(`Core/Substances/convert.py`): index 2 for the diatomic specials'
elements, 1 otherwise. -/
def simpleOfElement (e : Element) : Particle :=
  .simple e (if specialsElements.contains e then 2 else 1)

/-- The `simple()` conversion applied to an ion: fails with
`UnsupportedSubstanceSize` on more than one distinct element, hits a
Python `IndexError` on an empty composition (`elements[0]`), else
takes the single element. -/
def simpleOfIon (c : Comp) : Except Exc Particle :=
  match c with
  | [(e, _)] => .ok (simpleOfElement e)
  | [] => .error .pyIndexError
  | _ => .error .unsupportedSubstanceSize

/-- `is_gas` from `Core/Substances/convert.py`: false for more than two
distinct elements; true for the first four special simples
(`Simple.specials[:4]` = H2, Cl2, N2, O2, compared with `==`); for
exactly two distinct elements, true when one of C/N/S occurs together
with one of H/O. -/
def isGas (p : Particle) : Bool :=
  if 2 < p.comp.length then false
  else if (specialsP.take 4).any (fun s => peq p s) then true
  else if p.comp.length == 2 then
    [elC, elN, elS].any (fun e1 =>
      [elH, elO].any (fun e2 =>
        (compLookup p.comp e1).isSome && (compLookup p.comp e2).isSome))
  else false

/-- `Molecule.simple_class` for a molecule's data: water is an oxide;
then a proton cation makes an acid, a hydroxide anion a base, an
oxide anion an oxide, anything else a salt. -/
def moleculeSimpleClass (cat an : IonData) : String :=
  if peq (.molecule cat an) waterP then "oxide"
  else if ionEq cat protonD then "acid"
  else if ionEq an hydroxideD then "base"
  else if ionEq an oxygenD then "oxide"
  else "salt"

/-- `simple_class` as an attribute access on an arbitrary particle:
molecules and simples have it (`Simple.simple_class` answers
metal/nonmetal by the `pt.METALS` / `pt.NONMETALS` tuples, which
partition the embedded elements); ions, ion groups and elementary
particles raise `AttributeError`. -/
def simpleClassP : Particle → Except Exc String
  | .simple e _ => .ok (if e.metal then "metal" else "nonmetal")
  | .molecule cat an => .ok (moleculeSimpleClass cat an)
  | _ => .error .pyAttributeError

/- `Core/Database/MetalActivitySeries.py`. -/

/-- `MetalActivitySeries.activity`, translated from the source: reject
non-metals other than hydrogen (`_is_metal(include_hydrogen=True)`),
then classify by group letter, group number and relative
electronegativity.  Note `middle_active_if` contains the Python tuple
`(element == pt.Ni, pt.H)`, whose `all(...)` reduces to
`element == Ni` because the element object `pt.H` is truthy.  When no
rule matches the source *constructs* a `NotSupposedToHappen` without
raising it and falls through returning `None`, rendered here as the
sentinel `"None"` (never equal to any activity label). -/
def activitySt (e : Element) : Except Exc String :=
  if e.metal || e == elH then
    if 104 ≤ e.atomicNumber then .ok "unknown"
    else if e.groupLetter == 'A' && e.groupNum ≤ 2 then .ok "active"
    else if (e.groupLetter == 'B' && e.ren < 19/10)
        || (e.groupLetter == 'A' && 2 < e.groupNum)
        || e == elNi then .ok "middle active"
    else if e.groupLetter == 'B' && 19/10 ≤ e.ren then .ok "inactive"
    else .ok "None"
  else .error .elementIsNotMetal

/-- Failure modes of `MetalActivitySeries.more_active` (it can raise
`ElementIsNotMetal`, `UnknownActivityMetal` or `NotSupposedToHappen`,
but never a restriction exception). -/
inductive MasErr where
  | elementIsNotMetal
  | unknownActivityMetal
  | notSupposedToHappen
  deriving DecidableEq, Repr

/-- Inject a `MasErr` into the package exception type. -/
def MasErr.toExc : MasErr → Exc
  | .elementIsNotMetal => .elementIsNotMetal
  | .unknownActivityMetal => .unknownActivityMetal
  | .notSupposedToHappen => .notSupposedToHappen

/-- Failure modes of `st_substance` (`SubstanceNotFound` when the
solubility table has no row, `NotSupposedToHappen` on duplicates). -/
inductive StErr where
  | substanceNotFound
  | notSupposedToHappen
  deriving DecidableEq, Repr

/-- Inject an `StErr` into the package exception type. -/
def StErr.toExc : StErr → Exc
  | .substanceNotFound => .substanceNotFound
  | .notSupposedToHappen => .notSupposedToHappen

/-- The external data the core consults at run time but whose resource
files are not part of the sources: the solubility-table lookups
(`st_substance` solubility codes and `_exists` for ions) and the
metal-activity series comparison (`more_active`, which reads the
series file). -/
structure Oracles where
  solubility : IonData → IonData → Except StErr String
  moreActive : Element → Element → Except MasErr Element
  ionExists : Comp → Int → Bool

/- `Core/ReactionMechanisms/MolecularMechanisms/Restrictions.py`. -/

/-- `st_substance(product).solubility` as invoked by the
weak-electrolyte restriction: only a molecule has the `cation`/`anion`
attributes the lookup needs; any other particle raises
`AttributeError`. -/
def stSolubility (o : Oracles) : Particle → Except Exc String
  | .molecule cat an => (o.solubility cat an).mapError StErr.toExc
  | _ => .error .pyAttributeError

/-- `weak_electrolyte_restriction`: scan the products for water, a gas,
or an insoluble/slightly-soluble substance; with no hit, raise
`WeakElectrolyteNotFound` when `raise_exception` is set, else return
`False`. -/
def weakElectrolyteRestriction (o : Oracles) :
    List Particle → Bool → Except Exc Bool
  | [], raiseExc =>
      if raiseExc then .error .weakElectrolyteNotFound else .ok false
  | p :: rest, raiseExc =>
      if peq p waterP then .ok true
      else if isGas p then .ok true
      else do
        let sol ← stSolubility o p
        if sol == "NS" || sol == "SS" then .ok true
        else weakElectrolyteRestriction o rest raiseExc

/-- The `(sub : Molecule, metal : Simple)` branch of
`metal_activity_restriction`: convert the molecule's cation to a
simple, compare activities, and on a less-active simple metal raise
`LessActiveMetalReagent` only when `raise_exception` is set. -/
def marMolSimple (o : Oracles) (cat : IonData) (metalE : Element)
    (raiseExc : Bool) : Except Exc Bool := do
  let ms ← simpleOfIon cat.comp
  match ms with
  | .simple me _ =>
      let active ← (o.moreActive me metalE).mapError MasErr.toExc
      if active == metalE then .ok true
      else if raiseExc then .error .lessActiveMetalReagent
      else .ok false
  | _ => .error .notSupposedToHappen

/-- `metal_activity_restriction(sub, metal, raise_exception)`.  The
`(Simple, Molecule)` branch of the source recurses with the arguments
swapped but *without* forwarding `raise_exception`, so the recursive
call runs with the default `raise_exception=False`; the recursion is
unfolded here into a direct call of the `(Molecule, Simple)` core. -/
def metalActivityRestriction (o : Oracles) (sub metal : Particle)
    (raiseExc : Bool) : Except Exc Bool :=
  match sub, metal with
  | .molecule cat _, .simple me _ => marMolSimple o cat me raiseExc
  | .simple me _, .molecule cat _ => marMolSimple o cat me false
  | _, _ => .error .notSupposedToHappen

/-- `product.cation.elements[0]` for a base product: the single element
of the cation's composition (cations are single-element by the
constructor check; an empty composition would be a Python
`IndexError`). -/
def cationFirstElement (cat : IonData) : Except Exc Element :=
  match cat.comp with
  | [] => .error .pyIndexError
  | (e, _) :: _ => .ok e

/-- `metal_and_water_restriction`: find the first base among the
products and require its metal to be classed `"active"`; raise
`WrongMetalActivity` only when `raise_exception` is set.  If no
product is a base the source raises `WrongSimpleClass` regardless of
the flag. -/
def metalAndWaterRestriction :
    List Particle → Bool → Except Exc Bool
  | [], _ => .error .wrongSimpleClass
  | p :: rest, raiseExc => do
      let sc ← simpleClassP p
      if sc == "base" then
        match p with
        | .molecule cat _ => do
            let metalE ← cationFirstElement cat
            let act ← activitySt metalE
            if act == "active" then .ok true
            else if raiseExc then .error .wrongMetalActivity
            else .ok false
        | _ => .error .notSupposedToHappen
      else
        metalAndWaterRestriction rest raiseExc

/- `Core/Tools/ReactionPredictionTool/predict.py` (RPT). -/

/-- The four entries of the molecular `restriction_dict`: the three
restriction functions plus the always-true lambda keyed `"None"`. -/
inductive RestrCode where
  | wer
  | mar
  | maw
  | noneR
  deriving DecidableEq, Repr

/-- Run a restriction from the dispatch table on a product tuple:
`restriction(*products, raise_exception=...)`.
`metal_activity_restriction` takes exactly two positional arguments,
so a product tuple of any other length is a Python `TypeError`. -/
def runRestriction (o : Oracles) :
    RestrCode → List Particle → Bool → Except Exc Bool
  | .noneR, _, _ => .ok true
  | .wer, ps, raiseExc => weakElectrolyteRestriction o ps raiseExc
  | .maw, ps, raiseExc => metalAndWaterRestriction ps raiseExc
  | .mar, ps, raiseExc =>
      match ps with
      | [a, b] => metalActivityRestriction o a b raiseExc
      | _ => .error .pyTypeError

/-- A row value of the decision dict: the mechanism function and the
restriction it is paired with. -/
structure MR where
  mech : List Particle → Except Exc (List Particle)
  restr : RestrCode

/-- `str.lower` on the ASCII class labels. -/
def toLowerStr (s : String) : String := s.map Char.toLower

/-- The lower-cased class labels of a reagent tuple, in order (step 1 of
`RPT.predict`, a left-to-right loop stopping at the first raised
exception).  The class function is a parameter: the molecular and
ionic `effective_class` functions, like everything they call, can
raise. -/
def labelsOf (classFn : Particle → Except Exc String) :
    List Particle → Except Exc (List String)
  | [] => .ok []
  | r :: rest => do
      let l ← (classFn r).map toLowerStr
      let ls ← labelsOf classFn rest
      .ok (l :: ls)

/-- Steps 1–2 of `RPT.predict`: lower-case the class labels and sort
them.  Python sorts strings by code points; since equal strings are
identical, the sorted permutation is unique and any sorting algorithm
produces it — we use insertion sort over the string order. -/
def signatureOf (classFn : Particle → Except Exc String)
    (rs : List Particle) : Except Exc (List String) :=
  (labelsOf classFn rs).map (List.insertionSort (· ≤ ·))

/-- `RPT.predict`: classify, sort, look the signature up in the
decision dict (`CannotPredictProducts` on a miss), run the mechanism,
run the restriction with `raise_exception = not ignore_restrictions`
(its boolean result is ignored), and return the mechanism products.
The decision dict is a parameter because its rows come from the
`MechanismsAndRestrictions.csv` resource, which is not part of the
sources. -/
def predict (o : Oracles) (dd : List String → Option MR)
    (classFn : Particle → Except Exc String) (rs : List Particle)
    (ignoreRestrictions : Bool) : Except Exc (List Particle) := do
  let sig ← signatureOf classFn rs
  match dd sig with
  | none => .error .cannotPredictProducts
  | some mr => do
      let ps ← mr.mech rs
      let _ ← runRestriction o mr.restr ps (!ignoreRestrictions)
      .ok ps

/- `Core/ReactionMechanisms/MolecularMechanisms/ExceptionalMechanisms.py`. -/

/-- The `NO3` ion of `_is_nitrate`: `Ion({pt.N: 1, pt.O: 3}, -1)`. -/
def NO3ion : IonData := ⟨[(elN, 1), (elO, 3)], -1⟩

/-- `Molecule.from_string(cation_string, cation_charge, anion_string,
anion_charge, database_check)`: build both ions with the database
check and assemble the molecule.  The source round-trips the cation
through its formula string and `chemparse`, which reproduces the
composition. -/
def moleculeFromParts (o : Oracles) (cc : Comp) (cq : Int)
    (ac : Comp) (aq : Int) (db : Bool) : Except Exc Particle := do
  let cat ← mkIon o.ionExists cc cq db
  let an ← mkIon o.ionExists ac aq db
  mkMolecule cat an

/-- `nitrate_decomposition`: check the simple class is acid or salt,
check the anion is `NO3(-1)` (`_is_nitrate(raise_exception=True)`),
classify the cation metal, construct all candidate products (in source
order, each nitrite/oxide ion looked up in the database), then branch
on the activity class. -/
def nitrateDecomposition (o : Oracles) (p : Particle) :
    Except Exc (List Particle) := do
  let sc ← simpleClassP p
  if sc != "acid" && sc != "salt" then .error .wrongSimpleClass
  else
    match p with
    | .molecule cat an =>
        if !ionEq an NO3ion then .error .wrongIon
        else do
          let ce ← cationFirstElement cat
          let act ← activitySt ce
          let meNO2 ← moleculeFromParts o cat.comp cat.charge
            [(elN, 1), (elO, 2)] (-1) true
          let meO ← moleculeFromParts o cat.comp cat.charge
            [(elO, 1)] (-2) true
          let me := simpleOfElement ce
          let no2 ← moleculeFromParts o [(elN, 1)] 4 [(elO, 1)] (-2) false
          let o2 : Particle := .simple elO 2
          if act == "active" then .ok [meNO2, o2]
          else if act == "middle active" then .ok [meO, no2, o2]
          else if act == "inactive" then .ok [me, no2, o2]
          else .error .notSupposedToHappen
    | _ => .error .pyAttributeError

/- `Core/Tools/Equalizer.py`. -/

/-- A rational matrix as a list of rows. -/
abbrev Mat := List (List Rat)

/-- Number of columns (length of the first row). -/
def ncols (m : Mat) : Nat := (m.headD []).length

/-- Entry of a row at a column, defaulting to 0. -/
def entryAt (row : List Rat) (c : Nat) : Rat := row.getD c 0

/-- One Gauss-Jordan elimination step: clear column `c` of `row` using
the normalized pivot row (whose entry at `c` is 1). -/
def elimAt (pivot : List Rat) (c : Nat) (row : List Rat) : List Rat :=
  List.zipWith (fun x p => x - entryAt row c * p) row pivot

/-- Extract the first list element satisfying `f`, together with the
remaining elements in order. -/
def extractFirst (f : List Rat → Bool) :
    List (List Rat) → Option (List Rat × List (List Rat))
  | [] => none
  | r :: rest =>
      if f r then some (r, rest)
      else (extractFirst f rest).map (fun (x, xs) => (x, r :: xs))

/-- The column sweep of reduced row echelon elimination: `done` holds
the pivot rows found so far (in pivot-column order) and `todo` the
rows not yet used as pivots.  At each column the first `todo` row with
a nonzero entry becomes the pivot; it is normalized and its column is
cleared from every other row. -/
def rrefGo : Nat → Nat → List (List Rat) → List (List Rat) → Mat
  | 0, _, done, todo => done ++ todo
  | fuel + 1, c, done, todo =>
      match extractFirst (fun row => entryAt row c != 0) todo with
      | none => rrefGo fuel (c + 1) done todo
      | some (row, rest) =>
          rrefGo fuel (c + 1)
            (done.map (elimAt (row.map (· / entryAt row c)) c) ++
              [row.map (· / entryAt row c)])
            (rest.map (elimAt (row.map (· / entryAt row c)) c))

/-- The reduced row echelon form of a matrix.  sympy's `Matrix.rref`
over the rationals produces the canonical RREF, which is unique for a
given row space and column order, so any correct elimination order
(including the row reordering performed here) yields the same
matrix. -/
def rref (m : Mat) : Mat := rrefGo (ncols m) 0 [] m

/-- The pivot column of a row: the index of its first nonzero entry. -/
def pivotColOf (row : List Rat) : Option Nat := row.findIdx? (· ≠ 0)

/-- The pivot columns of an RREF matrix, in row order. -/
def pivotCols (r : Mat) : List Nat := r.filterMap pivotColOf

/-- `Matrix.nullspace` as computed by sympy from the RREF: one basis
vector per free column `j` (in increasing column order), carrying 1 at
`j`, 0 at the other free columns, and the negated RREF entry
`-rref[k][j]` at the pivot column of row `k`. -/
def nullspaceAux (r : Mat) (n : Nat) (piv : List Nat) : List (List Rat) :=
  ((List.range n).filter (fun j => ¬ j ∈ piv)).map (fun j =>
    (List.range n).map (fun i =>
      if i = j then 1
      else
        match piv.indexOf? i with
        | some k => -(entryAt (r.getD k []) j)
        | none => 0))

def nullspace (m : Mat) : List (List Rat) :=
  nullspaceAux (rref m) (ncols m) (pivotCols (rref m))

/-- The least common multiple of the denominators of a vector, folded
left with seed 1 (Python `lcm(*denominators)`). -/
def lcmDens (v : List Rat) : Nat :=
  v.foldl (fun acc x => Nat.lcm acc x.den) 1

/-- `Equalizer._make_ints`: scale every entry by the least common
multiple of all denominators. -/
def makeInts (v : List Rat) : List Rat :=
  v.map (fun x => (lcmDens v : Rat) * x)

/-- `Equalizer._test`: the candidate vector must be all-integer and
strictly positive (`x % 1 == 0` on a sympy `Rational` is integrality). -/
def testVec (v : List Rat) : Bool :=
  v.all (fun x => x.den == 1) && v.all (fun x => 0 < x)

/-- The decimal digits of `n`, most significant first — `str(n)` read
digit by digit, as `_generate_lambdas` does (`go` carries `n` itself
as structural fuel). -/
def digitsBE (n : Nat) : List Nat := go n n
where
  go : Nat → Nat → List Nat
    | 0, _ => []
    | _ + 1, 0 => []
    | fuel + 1, n => go fuel (n / 10) ++ [n % 10]

/-- `int(k * '1')`: the repunit with `k` ones. -/
def repunit : Nat → Nat
  | 0 => 0
  | k + 1 => 10 * repunit k + 1

/-- `Equalizer.LAMBDA_SEARCH_THRESHOLD` (the default search bound). -/
def LAMBDA_THRESHOLD : Nat := 4

/-- The linear combination `sum_i lambdas[i] * ms[i]`, starting from
the zero vector of the dimension of `ms[0]`. -/
def combo (lambdas : List Nat) (ms : List (List Rat)) : List Rat :=
  (List.zipWith (fun (l : Nat) v => v.map (fun x => (l : Rat) * x)) lambdas ms).foldl
    (fun acc v => List.zipWith (· + ·) acc v)
    (List.replicate (ms.headD []).length (0 : Rat))

/-- The counting loop of `Equalizer._guess` over the numbers produced
by `_generate_lambdas`: test the digit-list combination of each `n`
in turn and return the first success; raise `CannotEquateReaction`
when the range is exhausted. -/
def guessLoop (ms : List (List Rat)) : Nat → Nat → Except Exc (List Rat)
  | _, 0 => .error .cannotEquateReaction
  | n, fuel + 1 =>
      if testVec (combo (digitsBE n) ms) then .ok (combo (digitsBE n) ms)
      else guessLoop ms (n + 1) fuel

/-- `Equalizer._guess`: `_generate_lambdas` counts an integer from
`int(len(ms) * '1')` up to `int(len(ms) * str(threshold))` (for the
default threshold 4 that upper bound is `4 * repunit`), and `_guess`
accepts the first digit-list combination that passes `_test`. -/
def guess (ms : List (List Rat)) : Except Exc (List Rat) :=
  guessLoop ms (repunit ms.length)
    (LAMBDA_THRESHOLD * repunit ms.length + 1 - repunit ms.length)

/-- The elements spanned by a substance list (`Equalizer.elements`):
the union of the element sets, skipping elementary particles.  The
source iterates a Python `set` in unspecified order; we keep
first-occurrence order, which is immaterial because the RREF — and
hence the nullspace — of a matrix is invariant under row
permutation. -/
def elementsOf (subs : List Particle) : List Element :=
  subs.foldl (fun acc s =>
    s.comp.foldl (fun acc kv => if kv.1 ∈ acc then acc else acc ++ [kv.1]) acc) []

/-- Atom count of an element in a substance (0 for an elementary
particle and for absent elements). -/
def countIn (s : Particle) (e : Element) : Rat :=
  ((compLookup s.comp e).getD 0 : Nat)

/-- The sign applied to a substance column: −1 when the substance is
`in self.products` (membership tested with `Particle.__eq__`), else
+1. -/
def colMult (products : List Particle) (s : Particle) : Rat :=
  if products.any (fun q => peq q s) then -1 else 1

/-- `Equalizer.matrix(charge_balance=True)`: one mass-balance row per
element, each column carrying the signed atom count, plus one final
charge-balance row of signed charges. -/
def eqMatrix (reagents products : List Particle) : Mat :=
  (elementsOf (reagents ++ products)).map (fun e =>
    (reagents ++ products).map (fun s => colMult products s * countIn s e)) ++
    [(reagents ++ products).map (fun s => colMult products s * (s.charge : Rat))]

/-- `Equalizer.solve`: no nullspace vector is `CannotEquateReaction`;
exactly one is scaled integral by `_make_ints`; more than one goes to
the bounded `_guess` search. -/
def solveEq (reagents products : List Particle) : Except Exc (List Rat) :=
  match nullspace (eqMatrix reagents products) with
  | [] => .error .cannotEquateReaction
  | [v] => .ok (makeInts v)
  | ms => guess ms

/-- Python `int()` applied to an exact rational: truncation toward
zero. -/
def toIntTrunc (x : Rat) : Int := x.num / (x.den : Int)

/-- Key identity in a Python `dict` of particles: same hash bucket
(equal hashed formula strings, with string hashing modelled as
injective) and `__eq__`. -/
def sameKey (p q : Particle) : Bool := hashStr p == hashStr q && peq p q

/-- `dict.update({k: v})`: replace the value of an existing key (the
stored key object is kept), else append the new pair. -/
def dictInsert (d : List (Particle × Int)) (k : Particle) (v : Int) :
    List (Particle × Int) :=
  if d.any (fun kv => sameKey kv.1 k) then
    d.map (fun kv => if sameKey kv.1 k then (kv.1, v) else kv)
  else
    d ++ [(k, v)]

/-- `Equalizer.coefficients`: solve, then fold the
`{substance: int(coefficient)}` updates over the zip of the solution
vector with `reagents + products`. -/
def coefficients (reagents products : List Particle) :
    Except Exc (List (Particle × Int)) := do
  let v ← solveEq reagents products
  .ok ((List.zip v (reagents ++ products)).foldl
    (fun d xs => dictInsert d xs.2 (toIntTrunc xs.1)) [])

/-- Decidable equality for `Except` results (needed to state concrete
evaluations of the embedded fallible functions). -/
instance {e a : Type} [DecidableEq e] [DecidableEq a] :
    DecidableEq (Except e a) := fun x y =>
  match x, y with
  | .ok v, .ok w =>
      if h : v = w then isTrue (by rw [h]) else isFalse (by simp [h])
  | .error v, .error w =>
      if h : v = w then isTrue (by rw [h]) else isFalse (by simp [h])
  | .ok _, .error _ => isFalse (by simp)
  | .error _, .ok _ => isFalse (by simp)

/-! ## Helper lemmas -/

/-- `Except` bind on a success. -/
theorem except_bind_ok {e a b : Type} (x : a) (f : a → Except e b) :
    (Except.ok x : Except e a) >>= f = f x := rfl

/-- `Except` bind on a failure propagates the failure. -/
theorem except_bind_err {e a b : Type} (x : e) (f : a → Except e b) :
    (Except.error x : Except e a) >>= f = Except.error x := rfl

/-- `Except.map` on a success. -/
theorem except_map_ok {e a b : Type} (f : a → b) (x : a) :
    Except.map f (Except.ok x : Except e a) = Except.ok (f x) := rfl

/-- `Except.map` on a failure. -/
theorem except_map_err {e a b : Type} (f : a → b) (x : e) :
    Except.map f (Except.error x : Except e a) = Except.error x := rfl

/-- `Except.mapError` on a success. -/
theorem except_mapError_ok {e f a : Type} (g : e → f) (x : a) :
    Except.mapError g (Except.ok x : Except e a) = Except.ok x := rfl

/-- `Except.mapError` on a failure. -/
theorem except_mapError_err {e f a : Type} (g : e → f) (x : e) :
    Except.mapError g (Except.error x : Except e a) = Except.error (g x) := rfl

/-- Multiplying a rational by a natural multiple of its denominator
yields an integer (denominator 1). -/
theorem den_mul_cancel_den (q : Rat) : (q.den : Rat) * q = q.num := by
  have h : (q.num : Rat) / (q.den : Rat) = q := Rat.num_div_den q
  have hd : (q.den : Rat) ≠ 0 := by exact_mod_cast q.den_nz
  have h2 := (div_eq_iff hd).mp h
  linarith

/-- If the denominator of `x` divides `L`, then `L * x` is an integer. -/
theorem den_of_mul_of_den_dvd (x : Rat) (L : Nat) (h : x.den ∣ L) :
    ((L : Rat) * x).den = 1 := by
  obtain ⟨k, hk⟩ := h
  have : (L : Rat) * x = ((x.num * k : Int) : Rat) := by
    subst hk
    push_cast
    calc (x.den : Rat) * (k : Rat) * x
        = (k : Rat) * ((x.den : Rat) * x) := by ring
      _ = (k : Rat) * (x.num : Rat) := by rw [den_mul_cancel_den]
      _ = (x.num : Rat) * (k : Rat) := by ring
  rw [this, Rat.den_intCast]

/-- Divisibility is preserved along the left fold computing the least
common multiple of denominators. -/
theorem dvd_foldl_lcm_of_dvd_acc (l : List Rat) (d : Nat) :
    ∀ acc, d ∣ acc → d ∣ l.foldl (fun a x => Nat.lcm a x.den) acc := by
  induction l with
  | nil => intro acc h; simpa using h
  | cons y ys ih =>
      intro acc h
      exact ih (Nat.lcm acc y.den) (h.trans (Nat.dvd_lcm_left _ _))

/-- A member's denominator divides the folded least common multiple,
whatever the accumulator. -/
theorem den_dvd_foldl_lcm (l : List Rat) (x : Rat) (hx : x ∈ l) :
    ∀ acc, x.den ∣ l.foldl (fun a y => Nat.lcm a y.den) acc := by
  induction l with
  | nil => cases hx
  | cons y ys ih =>
      intro acc
      rcases List.mem_cons.1 hx with rfl | hx2
      · exact dvd_foldl_lcm_of_dvd_acc ys x.den _ (Nat.dvd_lcm_right _ _)
      · exact ih hx2 _

/-- Every denominator of a vector divides `lcmDens` of the vector. -/
theorem den_dvd_lcmDens (v : List Rat) (x : Rat) (hx : x ∈ v) :
    x.den ∣ lcmDens v :=
  den_dvd_foldl_lcm v x hx 1

/-- `_make_ints` always produces an all-integer vector. -/
theorem makeInts_all_int (v : List Rat) : ∀ x ∈ makeInts v, x.den = 1 := by
  intro x hx
  obtain ⟨y, hy, rfl⟩ := List.mem_map.1 hx
  exact den_of_mul_of_den_dvd y (lcmDens v) (den_dvd_lcmDens v y hy)

/-! ## C1 -/

/-- C1 (amended): for every reaction whose balance matrix has a
one-dimensional nullspace, `Equalizer.solve` returns the single
nullspace basis vector scaled by the least common multiple of the
denominators of its entries, and the result is all-integer; for the
reaction `H2 + O2 -> H2O`, `Equalizer.coefficients` returns
`{H2: 2, O2: 1, H2O: 2}`.  (The original claim additionally asserts
strict positivity and minimality, refuted by
`C1_positivity_counterexample`.) -/
theorem C1_dim1_solve (rs ps : List Particle) (v : List Rat)
    (h : nullspace (eqMatrix rs ps) = [v]) :
    solveEq rs ps = .ok (makeInts v) ∧
    (∀ x ∈ makeInts v, x.den = 1) ∧
    coefficients [Particle.simple elH 2, Particle.simple elO 2] [waterP] =
      .ok [(Particle.simple elH 2, 2), (Particle.simple elO 2, 1), (waterP, 2)] := by
  refine ⟨?_, makeInts_all_int v, by with_unfolding_all decide⟩
  unfold solveEq
  rw [h]

/-- Witness for `C1_dim1_solve`: the reaction `H2 + O2 -> H2O` itself
has the one-vector nullspace `[1, 1/2, 1]`. -/
theorem C1_dim1_solve_witness :
    solveEq [Particle.simple elH 2, Particle.simple elO 2] [waterP] =
        .ok (makeInts [1, 1/2, 1]) ∧
    (∀ x ∈ makeInts [1, 1/2, 1], x.den = 1) ∧
    coefficients [Particle.simple elH 2, Particle.simple elO 2] [waterP] =
      .ok [(Particle.simple elH 2, 2), (Particle.simple elO 2, 1), (waterP, 2)] :=
  C1_dim1_solve [Particle.simple elH 2, Particle.simple elO 2] [waterP]
    [1, 1/2, 1] (by with_unfolding_all decide)

/-- Counterexample to C1 as stated: the reaction `H2 + H2O -> O2` has a
one-dimensional nullspace, and `Equalizer.solve` returns the vector
`(-2, 2, 1)`, which is not strictly positive (hence also not the
smallest all-integer strictly positive vector). -/
theorem C1_positivity_counterexample :
    nullspace (eqMatrix [Particle.simple elH 2, waterP] [Particle.simple elO 2]) =
      [[-2, 2, 1]] ∧
    solveEq [Particle.simple elH 2, waterP] [Particle.simple elO 2] =
      .ok [-2, 2, 1] ∧
    ¬ ∀ x ∈ [(-2 : Rat), 2, 1], 0 < x := by
  refine ⟨by with_unfolding_all decide, by with_unfolding_all decide, ?_⟩
  intro h
  have := h (-2) (by decide)
  norm_num at this

/-! ## C2 -/

/-- C2: a molecule built from a cation of charge `+n` and an anion of
charge `-m` (`n`, `m` positive) is accepted by the constructor and
gets indices `cation_index = lcm(n,m)/n`, `anion_index = lcm(n,m)/m`,
which cancel the charges exactly; charges `(+3, -2)` give indices
`(2, 3)` and `(+2, -2)` give `(1, 1)`. -/
theorem C2_molecule_indices (cc ac : Comp) (n m : Nat)
    (_hn : 0 < n) (_hm : 0 < m) :
    indices (n : Int) (-(m : Int)) = (Nat.lcm n m / n, Nat.lcm n m / m) ∧
    mkMolecule ⟨cc, (n : Int)⟩ ⟨ac, -(m : Int)⟩ =
      .ok (.molecule ⟨cc, (n : Int)⟩ ⟨ac, -(m : Int)⟩) ∧
    (n : Int) * ((Nat.lcm n m / n : Nat) : Int) +
      (-(m : Int)) * ((Nat.lcm n m / m : Nat) : Int) = 0 ∧
    indices 3 (-2) = (2, 3) ∧ indices 2 (-2) = (1, 1) := by
  have h1 : ((n : Int)).natAbs = n := Int.natAbs_ofNat n
  have h2 : ((-(m : Int))).natAbs = m := by simp
  have hdn : n * (Nat.lcm n m / n) = Nat.lcm n m :=
    Nat.mul_div_cancel' (Nat.dvd_lcm_left n m)
  have hdm : m * (Nat.lcm n m / m) = Nat.lcm n m :=
    Nat.mul_div_cancel' (Nat.dvd_lcm_right n m)
  have e1 : (n : Int) * ((Nat.lcm n m / n : Nat) : Int) = (Nat.lcm n m : Int) := by
    exact_mod_cast hdn
  have e2 : (m : Int) * ((Nat.lcm n m / m : Nat) : Int) = (Nat.lcm n m : Int) := by
    exact_mod_cast hdm
  have hzero : (n : Int) * ((Nat.lcm n m / n : Nat) : Int) +
      (-(m : Int)) * ((Nat.lcm n m / m : Nat) : Int) = 0 := by
    rw [e1, neg_mul, e2]
    ring
  have hind : indices (n : Int) (-(m : Int)) =
      (Nat.lcm n m / n, Nat.lcm n m / m) := by
    unfold indices
    rw [h1, h2]
  refine ⟨hind, ?_, hzero, by decide, by decide⟩
  unfold mkMolecule
  rw [hind]
  simpa using hzero

/-- Witness for `C2_molecule_indices` at charges `(+3, -2)` (the
aluminium-oxide-style coprime pair). -/
theorem C2_molecule_indices_witness :
    (3 : Int) * ((Nat.lcm 3 2 / 3 : Nat) : Int) +
      (-(2 : Int)) * ((Nat.lcm 3 2 / 2 : Nat) : Int) = 0 :=
  (C2_molecule_indices [(elNa, 1)] [(elO, 1)] 3 2 (by decide) (by decide)).2.2.1

/-! ## C3 -/

/-- A successful bounded search returns the combination of the first
(in counting order) number in the searched range whose digit-list
combination passes `_test`. -/
theorem guessLoop_ok_first (ms : List (List Rat)) :
    ∀ (fuel start : Nat) (v : List Rat), guessLoop ms start fuel = .ok v →
      ∃ n, start ≤ n ∧ n < start + fuel ∧ v = combo (digitsBE n) ms ∧
        testVec v = true ∧
        ∀ j, start ≤ j → j < n → testVec (combo (digitsBE j) ms) = false := by
  intro fuel
  induction fuel with
  | zero => intro start v h; simp [guessLoop] at h
  | succ f ih =>
      intro start v h
      unfold guessLoop at h
      by_cases ht : testVec (combo (digitsBE start) ms) = true
      · rw [if_pos ht] at h
        refine ⟨start, le_refl _, by omega, ?_, ?_, ?_⟩
        · exact (Except.ok.inj h).symm
        · rw [← Except.ok.inj h]; exact ht
        · intro j h1 h2; omega
      · rw [if_neg ht] at h
        obtain ⟨n, hn1, hn2, hv, htv, hfirst⟩ := ih (start + 1) v h
        refine ⟨n, by omega, by omega, hv, htv, ?_⟩
        intro j hj1 hj2
        rcases Nat.eq_or_lt_of_le hj1 with rfl | hj3
        · exact Bool.eq_false_iff.2 ht
        · exact hfirst j hj3 hj2

/-- The bounded search raises `CannotEquateReaction` exactly when every
number in the searched range fails `_test`. -/
theorem guessLoop_err_iff (ms : List (List Rat)) :
    ∀ (fuel start : Nat),
      guessLoop ms start fuel = .error .cannotEquateReaction ↔
        ∀ n, start ≤ n → n < start + fuel →
          testVec (combo (digitsBE n) ms) = false := by
  intro fuel
  induction fuel with
  | zero =>
      intro start
      constructor
      · intro _ n h1 h2; omega
      · intro _; rfl
  | succ f ih =>
      intro start
      unfold guessLoop
      by_cases ht : testVec (combo (digitsBE start) ms) = true
      · rw [if_pos ht]
        constructor
        · intro h; cases h
        · intro h
          have := h start (le_refl _) (by omega)
          rw [ht] at this; cases this
      · rw [if_neg ht]
        rw [ih (start + 1)]
        constructor
        · intro h n h1 h2
          rcases Nat.eq_or_lt_of_le h1 with rfl | h3
          · exact Bool.eq_false_iff.2 ht
          · exact h n h3 (by omega)
        · intro h n h1 h2
          exact h n (by omega) (by omega)

/-- C3 (amended): when the nullspace has dimension greater than one,
`Equalizer.solve` delegates to `_guess`, whose `_generate_lambdas`
enumerates the *decimal digit lists* of the integers counted from
`11...1` (one 1 per basis vector) up to `44...4` (threshold 4), so
individual weights may be 0 or exceed the threshold; the first
combination (in counting order) passing `_test` is returned, and
`CannotEquateReaction` is raised exactly when every number in that
counting range fails.  (The original claim — each weight ranging over
1..threshold — is refuted by `C3_threshold_counterexample`.) -/
theorem C3_lambda_search (rs ps : List Particle) (ms : List (List Rat))
    (h : nullspace (eqMatrix rs ps) = ms) (h2 : 2 ≤ ms.length) :
    solveEq rs ps = guess ms ∧
    (∀ v, guess ms = .ok v →
      ∃ n, repunit ms.length ≤ n ∧
        n ≤ LAMBDA_THRESHOLD * repunit ms.length ∧
        v = combo (digitsBE n) ms ∧ testVec v = true ∧
        ∀ j, repunit ms.length ≤ j → j < n →
          testVec (combo (digitsBE j) ms) = false) ∧
    (guess ms = .error .cannotEquateReaction ↔
      ∀ n, repunit ms.length ≤ n →
        n ≤ LAMBDA_THRESHOLD * repunit ms.length →
          testVec (combo (digitsBE n) ms) = false) := by
  refine ⟨?_, ?_, ?_⟩
  · match ms, h2 with
    | a :: b :: t, _ =>
        unfold solveEq
        rw [h]
  · intro v hv
    unfold guess at hv
    obtain ⟨n, h1, h2, h3, h4, h5⟩ := guessLoop_ok_first ms _ _ v hv
    have hle : repunit ms.length ≤ LAMBDA_THRESHOLD * repunit ms.length := by
      unfold LAMBDA_THRESHOLD; omega
    exact ⟨n, h1, by omega, h3, h4, h5⟩
  · unfold guess
    rw [guessLoop_err_iff ms]
    have hle : repunit ms.length ≤ LAMBDA_THRESHOLD * repunit ms.length := by
      unfold LAMBDA_THRESHOLD; omega
    constructor
    · intro h n h1 h2; exact h n h1 (by omega)
    · intro h n h1 h2; exact h n h1 (by omega)

/- The C3 counterexample reaction: four neutral molecules built from
sodium and oxygen ions (constructible in the package since the direct
constructors perform no database check). -/

/-- Reagent `Na2O`: `Molecule(Ion({Na:1}, +1), Ion({O:1}, -2))`. -/
def cexA : Particle := .molecule ⟨[(elNa, 1)], 1⟩ ⟨[(elO, 1)], -2⟩

/-- Reagent `NaO2`: `Molecule(Ion({Na:1}, +2), Ion({O:1}, -1))`. -/
def cexB : Particle := .molecule ⟨[(elNa, 1)], 2⟩ ⟨[(elO, 1)], -1⟩

/-- Reagent `Na3O9`: `Molecule(Ion({Na:3}, +3), Ion({O:3}, -1))`. -/
def cexC : Particle := .molecule ⟨[(elNa, 3)], 3⟩ ⟨[(elO, 3)], -1⟩

/-- Product `Na3O3`: `Molecule(Ion({Na:3}, +1), Ion({O:3}, -1))`. -/
def cexD : Particle := .molecule ⟨[(elNa, 3)], 1⟩ ⟨[(elO, 3)], -1⟩

/-- Counterexample to C3 as stated: for the reaction
`cexA + cexB + cexC -> cexD` the nullspace has dimension 2 and *no*
weight pair with both weights in 1..4 passes `_test`, so the claim
mandates `CannotEquateReaction`; but `Equalizer.solve` succeeds,
returning the combination of the digit list `[1, 6]` of the counter
value 16, whose second weight exceeds the threshold. -/
theorem C3_threshold_counterexample :
    (nullspace (eqMatrix [cexA, cexB, cexC] [cexD])).length = 2 ∧
    solveEq [cexA, cexB, cexC] [cexD] = .ok [7, 1, 1, 6] ∧
    digitsBE 16 = [1, 6] ∧
    combo [1, 6] (nullspace (eqMatrix [cexA, cexB, cexC] [cexD])) =
      [7, 1, 1, 6] ∧
    (∀ l1 ∈ [1, 2, 3, 4], ∀ l2 ∈ [1, 2, 3, 4],
      testVec (combo [l1, l2]
        (nullspace (eqMatrix [cexA, cexB, cexC] [cexD]))) = false) := by
  with_unfolding_all decide

/-- Witness for `C3_lambda_search` at the counterexample reaction (the
only hypotheses are the nullspace shape and its dimension). -/
theorem C3_lambda_search_witness :
    solveEq [cexA, cexB, cexC] [cexD] =
      guess (nullspace (eqMatrix [cexA, cexB, cexC] [cexD])) ∧
    (∀ v, guess (nullspace (eqMatrix [cexA, cexB, cexC] [cexD])) = .ok v →
      ∃ n, repunit (nullspace (eqMatrix [cexA, cexB, cexC] [cexD])).length ≤ n ∧
        n ≤ LAMBDA_THRESHOLD *
          repunit (nullspace (eqMatrix [cexA, cexB, cexC] [cexD])).length ∧
        v = combo (digitsBE n) (nullspace (eqMatrix [cexA, cexB, cexC] [cexD])) ∧
        testVec v = true ∧
        ∀ j, repunit (nullspace (eqMatrix [cexA, cexB, cexC] [cexD])).length ≤ j →
          j < n →
          testVec (combo (digitsBE j)
            (nullspace (eqMatrix [cexA, cexB, cexC] [cexD]))) = false) ∧
    (guess (nullspace (eqMatrix [cexA, cexB, cexC] [cexD])) =
        .error .cannotEquateReaction ↔
      ∀ n, repunit (nullspace (eqMatrix [cexA, cexB, cexC] [cexD])).length ≤ n →
        n ≤ LAMBDA_THRESHOLD *
          repunit (nullspace (eqMatrix [cexA, cexB, cexC] [cexD])).length →
          testVec (combo (digitsBE n)
            (nullspace (eqMatrix [cexA, cexB, cexC] [cexD]))) = false) :=
  C3_lambda_search [cexA, cexB, cexC] [cexD] _ rfl
    (by with_unfolding_all decide)

/-! ## C6 -/

/-- C6: equality of particles is decided by composition and charge, but
the hash strings are the per-class formula renderings, and the equal
particles `Simple(H, 2)` (formula `H2`) and
`Molecule(Ion({H:1}, +1), Ion({H:1}, -1))` (formula `HH`) feed
different strings to `hash`, so their hashes differ. -/
theorem C6_eq_hash_mismatch :
    peq (.simple elH 2) (.molecule ⟨[(elH, 1)], 1⟩ ⟨[(elH, 1)], -1⟩) = true ∧
    hashStr (.simple elH 2) = "H2" ∧
    hashStr (.molecule ⟨[(elH, 1)], 1⟩ ⟨[(elH, 1)], -1⟩) = "HH" ∧
    hashStr (.simple elH 2) ≠
      hashStr (.molecule ⟨[(elH, 1)], 1⟩ ⟨[(elH, 1)], -1⟩) := by
  with_unfolding_all decide

/-! ## C9 -/

/-- Unpack a successful composition lookup into the found entry. -/
theorem compLookup_some_mem {c : Comp} {e : Element} {v : Nat}
    (h : compLookup c e = some v) :
    ∃ kv, kv ∈ c ∧ kv.1 = e ∧ kv.2 = v := by
  unfold compLookup at h
  cases hf : c.find? (fun kv => kv.1 = e) with
  | none => rw [hf] at h; cases h
  | some kv =>
      rw [hf] at h
      refine ⟨kv, List.mem_of_find?_eq_some hf, ?_, ?_⟩
      · have := List.find?_some hf
        exact of_decide_eq_true this
      · exact Option.some.inj h

/-- First direction of the Python dict equality: every entry of the
left dict is found in the right one. -/
theorem pyDictEq_lookup_left {c1 c2 : Comp} (h : pyDictEq c1 c2 = true) :
    ∀ kv ∈ c1, compLookup c2 kv.1 = some kv.2 := by
  unfold pyDictEq at h
  rw [Bool.and_eq_true] at h
  intro kv hkv
  exact eq_of_beq ((List.all_eq_true.1 h.1) kv hkv)

/-- Second direction of the Python dict equality. -/
theorem pyDictEq_lookup_right {c1 c2 : Comp} (h : pyDictEq c1 c2 = true) :
    ∀ kv ∈ c2, compLookup c1 kv.1 = some kv.2 := by
  unfold pyDictEq at h
  rw [Bool.and_eq_true] at h
  intro kv hkv
  exact eq_of_beq ((List.all_eq_true.1 h.2) kv hkv)

/-- Build a Python dict equality from the two lookup directions. -/
theorem pyDictEq_of_lookups {c1 c2 : Comp}
    (h1 : ∀ kv ∈ c1, compLookup c2 kv.1 = some kv.2)
    (h2 : ∀ kv ∈ c2, compLookup c1 kv.1 = some kv.2) :
    pyDictEq c1 c2 = true := by
  unfold pyDictEq
  rw [Bool.and_eq_true]
  constructor
  · exact List.all_eq_true.2 (fun kv hkv => beq_iff_eq.2 (h1 kv hkv))
  · exact List.all_eq_true.2 (fun kv hkv => beq_iff_eq.2 (h2 kv hkv))

/-- Python dict equality is symmetric. -/
theorem pyDictEq_symm {c1 c2 : Comp} (h : pyDictEq c1 c2 = true) :
    pyDictEq c2 c1 = true :=
  pyDictEq_of_lookups (pyDictEq_lookup_right h) (pyDictEq_lookup_left h)

/-- Python dict equality is transitive. -/
theorem pyDictEq_trans {c1 c2 c3 : Comp} (h12 : pyDictEq c1 c2 = true)
    (h23 : pyDictEq c2 c3 = true) : pyDictEq c1 c3 = true := by
  refine pyDictEq_of_lookups ?_ ?_
  · intro kv hkv
    obtain ⟨kv2, hm, hk, hv⟩ :=
      compLookup_some_mem (pyDictEq_lookup_left h12 kv hkv)
    have := pyDictEq_lookup_left h23 kv2 hm
    rw [hk, hv] at this
    exact this
  · intro kv hkv
    obtain ⟨kv2, hm, hk, hv⟩ :=
      compLookup_some_mem (pyDictEq_lookup_right h23 kv hkv)
    have := pyDictEq_lookup_right h12 kv2 hm
    rw [hk, hv] at this
    exact this

/-- `Particle.__eq__` is symmetric. -/
theorem peq_symm {p q : Particle} (h : peq p q = true) : peq q p = true := by
  cases p <;> cases q <;> simp [peq] at h ⊢ <;>
    first
      | exact ⟨h.1.symm, h.2.symm⟩
      | exact ⟨pyDictEq_symm h.1, h.2.symm⟩

/-- `Particle.__eq__` is transitive. -/
theorem peq_trans {p q r : Particle} (h1 : peq p q = true)
    (h2 : peq q r = true) : peq p r = true := by
  cases p <;> cases q <;> simp [peq] at h1 <;> cases r <;> simp [peq] at h2 ⊢ <;>
    first
      | exact ⟨h1.1.trans h2.1, h1.2.trans h2.2⟩
      | exact ⟨pyDictEq_trans h1.1 h2.1, h1.2.trans h2.2⟩

/-- Hash-bucket-plus-equality key identity is symmetric. -/
theorem sameKey_symm {p q : Particle} (h : sameKey p q = true) :
    sameKey q p = true := by
  unfold sameKey at h ⊢
  rw [Bool.and_eq_true] at h ⊢
  exact ⟨beq_iff_eq.2 (eq_of_beq h.1).symm, peq_symm h.2⟩

/-- Hash-bucket-plus-equality key identity is transitive. -/
theorem sameKey_trans {p q r : Particle} (h1 : sameKey p q = true)
    (h2 : sameKey q r = true) : sameKey p r = true := by
  unfold sameKey at h1 h2 ⊢
  rw [Bool.and_eq_true] at h1 h2 ⊢
  exact ⟨beq_iff_eq.2 ((eq_of_beq h1.1).trans (eq_of_beq h2.1)),
    peq_trans h1.2 h2.2⟩

/-- A key is present in a coefficient dict when some stored entry sits
in its hash bucket and compares equal. -/
def keyPresent (d : List (Particle × Int)) (k : Particle) : Bool :=
  d.any (fun kv => sameKey kv.1 k)

/-- Updating a present key does not change the dict size. -/
theorem dictInsert_length_present {d : List (Particle × Int)}
    {k : Particle} (v : Int) (h : keyPresent d k = true) :
    (dictInsert d k v).length = d.length := by
  unfold keyPresent at h
  unfold dictInsert
  rw [if_pos h]
  exact List.length_map d _

/-- An insert grows the dict by at most one entry. -/
theorem dictInsert_length_le (d : List (Particle × Int)) (k : Particle)
    (v : Int) : (dictInsert d k v).length ≤ d.length + 1 := by
  unfold dictInsert
  by_cases h : d.any (fun kv => sameKey kv.1 k) = true
  · rw [if_pos h, List.length_map]; omega
  · rw [if_neg h, List.length_append]; simp

/-- Inserting never removes a present key. -/
theorem keyPresent_dictInsert_mono {d : List (Particle × Int)}
    {k' : Particle} (k : Particle) (v : Int)
    (h : keyPresent d k' = true) :
    keyPresent (dictInsert d k v) k' = true := by
  unfold keyPresent dictInsert at *
  by_cases hp : d.any (fun kv => sameKey kv.1 k) = true
  · rw [if_pos hp, List.any_map]
    obtain ⟨kv, hm, hk⟩ := List.any_eq_true.1 h
    refine List.any_eq_true.2 ⟨kv, hm, ?_⟩
    by_cases hsk : sameKey kv.1 k = true <;> simp [Function.comp, hsk, hk]
  · rw [if_neg hp, List.any_append, h, Bool.true_or]

/-- After inserting key `k`, any key in the same bucket equal to `k` is
present. -/
theorem keyPresent_dictInsert_other (d : List (Particle × Int))
    {k p : Particle} (v : Int) (hkp : sameKey k p = true) :
    keyPresent (dictInsert d k v) p = true := by
  unfold keyPresent dictInsert
  by_cases hp : d.any (fun kv => sameKey kv.1 k) = true
  · rw [if_pos hp, List.any_map]
    obtain ⟨kv, hm, hk⟩ := List.any_eq_true.1 hp
    refine List.any_eq_true.2 ⟨kv, hm, ?_⟩
    have htr : sameKey kv.1 p = true := sameKey_trans hk hkp
    by_cases hsk : sameKey kv.1 k = true <;> simp [Function.comp, hsk, htr]
  · rw [if_neg hp, List.any_append]
    have hone : List.any [(k, v)] (fun kv => sameKey kv.1 p) = true := by
      simp [hkp]
    rw [hone, Bool.or_true]

/-- The coefficient-building fold grows the dict by at most one entry
per zipped pair. -/
theorem coeff_fold_length_le (pairs : List (Rat × Particle)) :
    ∀ d : List (Particle × Int),
      (pairs.foldl (fun d xs => dictInsert d xs.2 (toIntTrunc xs.1)) d).length ≤
        d.length + pairs.length := by
  induction pairs with
  | nil => intro d; simp
  | cons q t ih =>
      intro d
      calc (List.foldl _ (dictInsert d q.2 (toIntTrunc q.1)) t).length
          ≤ (dictInsert d q.2 (toIntTrunc q.1)).length + t.length := ih _
        _ ≤ d.length + 1 + t.length := by
            have := dictInsert_length_le d q.2 (toIntTrunc q.1)
            omega
        _ = d.length + (q :: t).length := by simp; omega

/-- If some key of the remaining pairs is already present in the dict,
the fold saves at least one entry. -/
theorem coeff_fold_length_lt_of_present (pairs : List (Rat × Particle)) :
    ∀ (d : List (Particle × Int)) (q : Rat × Particle), q ∈ pairs →
      keyPresent d q.2 = true →
      (pairs.foldl (fun d xs => dictInsert d xs.2 (toIntTrunc xs.1)) d).length ≤
        d.length + pairs.length - 1 := by
  induction pairs with
  | nil => intro d q hq; cases hq
  | cons p t ih =>
      intro d q hq hpres
      rcases List.mem_cons.1 hq with rfl | hq2
      · have hlen : (dictInsert d q.2 (toIntTrunc q.1)).length = d.length :=
          dictInsert_length_present _ hpres
        calc (List.foldl _ (dictInsert d q.2 (toIntTrunc q.1)) t).length
            ≤ (dictInsert d q.2 (toIntTrunc q.1)).length + t.length :=
              coeff_fold_length_le t _
          _ = d.length + t.length := by rw [hlen]
          _ = d.length + (q :: t).length - 1 := by
              simp only [List.length_cons]
              omega
      · have hpres2 : keyPresent (dictInsert d p.2 (toIntTrunc p.1)) q.2 = true :=
          keyPresent_dictInsert_mono _ _ hpres
        have hle := dictInsert_length_le d p.2 (toIntTrunc p.1)
        have := ih (dictInsert d p.2 (toIntTrunc p.1)) q hq2 hpres2
        have ht : 1 ≤ t.length := List.length_pos.2 (List.ne_nil_of_mem hq2)
        simp only [List.length_cons, List.foldl_cons]
        omega

/-- The fold over a pair list containing two entries with the same
dict key produces strictly fewer entries than there are pairs. -/
theorem coeff_fold_dup_lt (l1 : List (Rat × Particle))
    (a : Rat × Particle) (l2 : List (Rat × Particle))
    (b : Rat × Particle) (hb : b ∈ l2) (hk : sameKey a.2 b.2 = true) :
    ∀ d : List (Particle × Int),
      ((l1 ++ a :: l2).foldl
        (fun d xs => dictInsert d xs.2 (toIntTrunc xs.1)) d).length ≤
        d.length + (l1 ++ a :: l2).length - 1 := by
  induction l1 with
  | nil =>
      intro d
      have hpres : keyPresent (dictInsert d a.2 (toIntTrunc a.1)) b.2 = true :=
        keyPresent_dictInsert_other d _ hk
      have hle := dictInsert_length_le d a.2 (toIntTrunc a.1)
      have := coeff_fold_length_lt_of_present l2
        (dictInsert d a.2 (toIntTrunc a.1)) b hb hpres
      have hl2 : 1 ≤ l2.length := List.length_pos.2 (List.ne_nil_of_mem hb)
      simp only [List.nil_append, List.foldl_cons, List.length_cons]
      omega
  | cons p t ih =>
      intro d
      have hle := dictInsert_length_le d p.2 (toIntTrunc p.1)
      have := ih (dictInsert d p.2 (toIntTrunc p.1))
      simp only [List.cons_append, List.foldl_cons, List.length_cons] at this ⊢
      have hlen : 1 ≤ (t ++ a :: l2).length := by
        simp only [List.length_append, List.length_cons]
        omega
      omega

/-- The number of columns of the balance matrix is the number of
substances. -/
theorem ncols_eqMatrix (rs ps : List Particle) :
    ncols (eqMatrix rs ps) = (rs ++ ps).length := by
  cases h : elementsOf (rs ++ ps) with
  | nil =>
      unfold eqMatrix ncols
      rw [h]
      simp
  | cons e t =>
      unfold eqMatrix ncols
      rw [h]
      simp

/-- Every nullspace basis vector has one entry per column. -/
theorem nullspace_mem_length (m : Mat) (v : List Rat)
    (hv : v ∈ nullspace m) : v.length = ncols m := by
  unfold nullspace at hv
  obtain ⟨j, _, rfl⟩ := List.mem_map.1 hv
  simp

/-- Left-folding vector addition over equal-length vectors keeps the
length of the accumulator. -/
theorem foldl_zipWith_add_length (l : List (List Rat)) :
    ∀ acc : List Rat, (∀ w ∈ l, w.length = acc.length) →
      (l.foldl (fun a v => List.zipWith (· + ·) a v) acc).length = acc.length := by
  induction l with
  | nil => intro acc _; rfl
  | cons w t ih =>
      intro acc h
      have hw : w.length = acc.length := h w (by simp)
      have hacc : (List.zipWith (· + ·) acc w).length = acc.length := by
        rw [List.length_zipWith, hw]; omega
      rw [List.foldl_cons, ih _ ?_, hacc]
      intro u hu
      rw [hacc]
      exact h u (by simp [hu])

/-- Scaled basis vectors keep the length of some basis vector. -/
theorem mem_zipWith_scale {ls : List Nat} {ms : List (List Rat)}
    {u : List Rat}
    (hu : u ∈ List.zipWith
      (fun (l : Nat) v => v.map (fun x => (l : Rat) * x)) ls ms) :
    ∃ w ∈ ms, u.length = w.length := by
  induction ls generalizing ms with
  | nil => simp at hu
  | cons l lt ih =>
      cases ms with
      | nil => simp at hu
      | cons w wt =>
          rcases List.mem_cons.1 hu with rfl | hu2
          · exact ⟨w, by simp, by simp⟩
          · obtain ⟨w2, hw2, hl⟩ := ih hu2
            exact ⟨w2, by simp [hw2], hl⟩

/-- A `_guess` combination has one entry per column when all basis
vectors do. -/
theorem combo_length (ls : List Nat) (ms : List (List Rat)) (n : Nat)
    (hne : ms ≠ []) (h : ∀ w ∈ ms, w.length = n) :
    (combo ls ms).length = n := by
  unfold combo
  have hacc : (List.replicate (ms.headD []).length (0 : Rat)).length = n := by
    rw [List.length_replicate]
    cases ms with
    | nil => exact absurd rfl hne
    | cons w t => exact h w (by simp)
  rw [foldl_zipWith_add_length _ _ ?_, hacc]
  intro u hu
  obtain ⟨w, hw, hl⟩ := mem_zipWith_scale hu
  rw [hacc, hl]
  exact h w hw

/-- A successful solve returns one coefficient per substance. -/
theorem solveEq_ok_length (rs ps : List Particle) (v : List Rat)
    (h : solveEq rs ps = .ok v) : v.length = (rs ++ ps).length := by
  have hn := ncols_eqMatrix rs ps
  unfold solveEq at h
  cases hns : nullspace (eqMatrix rs ps) with
  | nil => rw [hns] at h; cases h
  | cons a t =>
      cases t with
      | nil =>
          rw [hns] at h
          have hv : v = makeInts a := (Except.ok.inj h).symm
          have ha : a.length = ncols (eqMatrix rs ps) :=
            nullspace_mem_length _ a (hns ▸ List.mem_cons_self a [])
          rw [hv]
          unfold makeInts
          rw [List.length_map, ha, hn]
      | cons b t2 =>
          rw [hns] at h
          obtain ⟨n, _, _, hv, _, _⟩ :=
            guessLoop_ok_first (a :: b :: t2) _ _ v h
          rw [hv]
          refine combo_length _ _ _ (by simp) ?_
          intro w hw
          rw [← hn]
          exact nullspace_mem_length _ w (hns ▸ hw)

/-- A member of the right list of a zip of equal-length lists appears
in the zip with some partner. -/
theorem mem_zip_right {l1 : List Rat} {l2 : List Particle}
    (h : l1.length = l2.length) {b : Particle} (hb : b ∈ l2) :
    ∃ a, (a, b) ∈ l1.zip l2 := by
  induction l2 generalizing l1 with
  | nil => cases hb
  | cons c t ih =>
      cases l1 with
      | nil => simp at h
      | cons x xt =>
          rcases List.mem_cons.1 hb with rfl | hb2
          · exact ⟨x, by simp⟩
          · obtain ⟨a, ha⟩ := ih (by simpa using h) hb2
            exact ⟨a, by simp [ha]⟩

/-- C9 (amended): a reagent equal (same composition and charge) to some
product gets the product sign −1 in its balance-matrix column; and
whenever a reagent and a product agree on *both* `__eq__` and the
hashed formula string — the Python dict key identity — the coefficient
dictionary merges their entries and ends up with fewer entries than
there are substances.  (Equal particles with different formula strings
do not merge, refuted in `C9_hash_counterexample`.) -/
theorem C9_duplicate_substance :
    (∀ (rs ps : List Particle) (e : Element) (i : Nat) (hi : i < rs.length),
      (∃ p ∈ ps, peq p (rs.get ⟨i, hi⟩) = true) →
      ((rs ++ ps).map (fun s => colMult ps s * countIn s e)).get
          ⟨i, by rw [List.length_map, List.length_append]; omega⟩ =
        -(countIn (rs.get ⟨i, hi⟩) e)) ∧
    (∀ (rs ps : List Particle) (d : List (Particle × Int)),
      (∃ r ∈ rs, ∃ p ∈ ps, sameKey r p = true) →
      coefficients rs ps = .ok d →
      d.length < (rs ++ ps).length) := by
  constructor
  · intro rs ps e i hi hp
    have hcm : colMult ps (rs.get ⟨i, hi⟩) = -1 := by
      unfold colMult
      rw [if_pos]
      obtain ⟨p, hpm, hpe⟩ := hp
      exact List.any_eq_true.2 ⟨p, hpm, hpe⟩
    have hget : ((rs ++ ps).get
        ⟨i, by rw [List.length_append]; omega⟩) = rs.get ⟨i, hi⟩ :=
      List.get_append i hi
    rw [List.get_map]
    rw [hget, hcm]
    ring
  · intro rs ps d hdup hok
    obtain ⟨r, hr, p, hp, hk⟩ := hdup
    unfold coefficients at hok
    cases hs : solveEq rs ps with
    | error e => rw [hs] at hok; cases hok
    | ok v =>
        rw [hs] at hok
        have hd : d = (v.zip (rs ++ ps)).foldl
            (fun d xs => dictInsert d xs.2 (toIntTrunc xs.1)) [] := by
          have := Except.ok.inj hok
          exact this.symm
        have hvl : v.length = (rs ++ ps).length := solveEq_ok_length rs ps v hs
        obtain ⟨u1, u2, hu⟩ := List.append_of_mem hr
        obtain ⟨w1, w2, hw⟩ := List.append_of_mem hp
        have hsubs : rs ++ ps = u1 ++ r :: (u2 ++ (w1 ++ p :: w2)) := by
          rw [hu, hw]
          simp
        have hp2 : p ∈ u2 ++ (w1 ++ p :: w2) := by simp
        have hlen1 : u1.length ≤ v.length := by
          rw [hvl, hsubs]
          simp [List.length_append]
        have htk : (v.take u1.length).length = u1.length := by
          rw [List.length_take]
          omega
        have hdl : (v.drop u1.length).length =
            (r :: (u2 ++ (w1 ++ p :: w2))).length := by
          rw [List.length_drop, hvl, hsubs]
          simp [List.length_append]
        cases hdrop : v.drop u1.length with
        | nil =>
            rw [hdrop] at hdl
            simp at hdl
        | cons x v2 =>
            have hzip : v.zip (rs ++ ps) =
                (v.take u1.length).zip u1 ++
                  ((x, r) :: v2.zip (u2 ++ (w1 ++ p :: w2))) := by
              conv_lhs => rw [← List.take_append_drop u1.length v, hsubs, hdrop]
              rw [List.zip_append htk]
              rfl
            have hv2l : v2.length = (u2 ++ (w1 ++ p :: w2)).length := by
              rw [hdrop] at hdl
              simpa using hdl
            obtain ⟨y, hy⟩ := mem_zip_right hv2l hp2
            have hb := coeff_fold_dup_lt ((v.take u1.length).zip u1) (x, r)
              (v2.zip (u2 ++ (w1 ++ p :: w2))) (y, p) hy hk []
            rw [hd, hzip]
            have hlenzip : ((v.take u1.length).zip u1 ++
                ((x, r) :: v2.zip (u2 ++ (w1 ++ p :: w2)))).length =
                (rs ++ ps).length := by
              rw [← hzip, List.length_zip, hvl]
              simp
            have hpos : 1 ≤ (rs ++ ps).length := by
              rw [hsubs]
              simp only [List.length_append, List.length_cons]
              omega
            simp only [List.length_nil] at hb
            omega

/-- Witness for `C9_duplicate_substance`: the degenerate reaction
`H2O -> H2O` (water on both sides); the single matrix row entry for
hydrogen in the reagent column is −2, and the coefficient dict has one
entry against two substances. -/
theorem C9_duplicate_substance_witness :
    ((([waterP] : List Particle) ++ [waterP]).map
        (fun s => colMult [waterP] s * countIn s elH)).get
      ⟨0, by decide⟩ =
        -(countIn (([waterP] : List Particle).get ⟨0, by decide⟩) elH) ∧
    ∀ d : List (Particle × Int), coefficients [waterP] [waterP] = .ok d →
      d.length < (([waterP] : List Particle) ++ [waterP]).length := by
  constructor
  · exact C9_duplicate_substance.1 [waterP] [waterP] elH 0 (by decide)
      ⟨waterP, by simp, by with_unfolding_all decide⟩
  · intro d hd
    exact C9_duplicate_substance.2 [waterP] [waterP] d
      ⟨waterP, by simp, waterP, by simp, by with_unfolding_all decide⟩ hd

/-- Counterexample to C9 as stated: `Simple(H, 2)` as reagent and the
equal molecule `HH` as product do *not* share a dict entry (their
formula strings differ), so the coefficient mapping has as many
entries as substances, not fewer. -/
theorem C9_hash_counterexample :
    peq (.simple elH 2) (.molecule ⟨[(elH, 1)], 1⟩ ⟨[(elH, 1)], -1⟩) = true ∧
    coefficients [.simple elH 2] [.molecule ⟨[(elH, 1)], 1⟩ ⟨[(elH, 1)], -1⟩] =
      .ok [(.simple elH 2, -1), (.molecule ⟨[(elH, 1)], 1⟩ ⟨[(elH, 1)], -1⟩, 1)] ∧
    ¬ ((2 : Nat) < ([Particle.simple elH 2] ++
        [Particle.molecule ⟨[(elH, 1)], 1⟩ ⟨[(elH, 1)], -1⟩]).length) := by
  with_unfolding_all decide

/-! ## C4 -/

/-- C4: `RPT.predict` lower-cases and sorts the reagent class labels
and dispatches on the sorted tuple, so reagent tuples whose label
lists are permutations of each other get the same signature — hence
the same mechanism/restriction row — and a signature that is not a
key of the decision dict raises `CannotPredictProducts`. -/
theorem C4_sorted_signature_dispatch (o : Oracles)
    (dd : List String → Option MR) (cf : Particle → Except Exc String)
    (r1 r2 : List Particle) (ign : Bool) (l1 l2 : List String)
    (h1 : labelsOf cf r1 = .ok l1) (h2 : labelsOf cf r2 = .ok l2)
    (hperm : l1.Perm l2) :
    signatureOf cf r1 = signatureOf cf r2 ∧
    (∀ sig, signatureOf cf r1 = .ok sig → dd sig = none →
      predict o dd cf r1 ign = .error .cannotPredictProducts ∧
      predict o dd cf r2 ign = .error .cannotPredictProducts) := by
  have hsort : List.insertionSort (· ≤ ·) l1 = List.insertionSort (· ≤ ·) l2 :=
    List.eq_of_perm_of_sorted
      ((List.perm_insertionSort _ l1).trans
        (hperm.trans (List.perm_insertionSort _ l2).symm))
      (List.sorted_insertionSort _ l1) (List.sorted_insertionSort _ l2)
  have hs1 : signatureOf cf r1 = .ok (List.insertionSort (· ≤ ·) l1) := by
    unfold signatureOf
    rw [h1]
    rfl
  have hs2 : signatureOf cf r2 = .ok (List.insertionSort (· ≤ ·) l2) := by
    unfold signatureOf
    rw [h2]
    rfl
  have hsig12 : signatureOf cf r1 = signatureOf cf r2 := by
    rw [hs1, hs2, hsort]
  refine ⟨hsig12, ?_⟩
  intro sig hsig hnone
  constructor
  · unfold predict
    rw [hsig]
    simp only [except_bind_ok, except_bind_err]
    rw [hnone]
  · unfold predict
    rw [← hsig12, hsig]
    simp only [except_bind_ok, except_bind_err]
    rw [hnone]


/-- Witness for `C4_sorted_signature_dispatch`: a single water reagent
under a constant class function and the empty decision dict. -/
theorem C4_sorted_signature_dispatch_witness :
    signatureOf (fun _ => .ok "Water") [waterP] =
      signatureOf (fun _ => .ok "Water") [waterP] ∧
    (∀ sig, signatureOf (fun _ => .ok "Water") [waterP] = .ok sig →
      (fun _ => (none : Option MR)) sig = none →
      predict ⟨fun _ _ => .ok "S", fun a _ => .ok a, fun _ _ => true⟩
          (fun _ => none) (fun _ => .ok "Water") [waterP] false =
        .error .cannotPredictProducts ∧
      predict ⟨fun _ _ => .ok "S", fun a _ => .ok a, fun _ _ => true⟩
          (fun _ => none) (fun _ => .ok "Water") [waterP] false =
        .error .cannotPredictProducts) :=
  C4_sorted_signature_dispatch
    ⟨fun _ _ => .ok "S", fun a _ => .ok a, fun _ _ => true⟩
    (fun _ => none) (fun _ => .ok "Water") [waterP] [waterP] false
    ["water"] ["water"] (by with_unfolding_all decide)
    (by with_unfolding_all decide) (List.Perm.refl _)

/-! ## C5 -/

/-- The metal-activity-series lookup failures are not restriction
exceptions. -/
theorem masErr_not_restriction (e : MasErr) :
    isRestrictionExc e.toExc = false := by
  cases e <;> rfl

/-- The solubility-table lookup failures are not restriction
exceptions. -/
theorem stErr_not_restriction (e : StErr) :
    isRestrictionExc e.toExc = false := by
  cases e <;> rfl

/-- A failing solubility lookup never fails with a restriction
exception. -/
theorem stSolubility_not_restriction (o : Oracles) (p : Particle)
    (e : Exc) (h : stSolubility o p = .error e) :
    isRestrictionExc e = false := by
  cases p with
  | molecule cat an =>
      simp only [stSolubility] at h
      revert h
      cases hsol2 : o.solubility cat an with
      | ok s =>
          intro h
          simp only [except_mapError_ok] at h
          cases h
      | error e2 =>
          intro h
          simp only [except_mapError_err] at h
          rw [← Except.error.inj h]
          exact stErr_not_restriction e2
  | simple e2 i => rw [← Except.error.inj h]; rfl
  | ion d => rw [← Except.error.inj h]; rfl
  | iongroup c a ci ai => rw [← Except.error.inj h]; rfl
  | elementary s q => rw [← Except.error.inj h]; rfl

/-- A failing metal-activity classification never fails with a
restriction exception. -/
theorem activitySt_error_not_restriction (me : Element) (e : Exc)
    (h : activitySt me = .error e) : isRestrictionExc e = false := by
  unfold activitySt at h
  by_cases hm : (me.metal || me == elH) = true
  · rw [if_pos hm] at h
    by_cases h1 : 104 ≤ me.atomicNumber
    · rw [if_pos h1] at h; cases h
    · rw [if_neg h1] at h
      by_cases h2 : (me.groupLetter == 'A' && decide (me.groupNum ≤ 2)) = true
      · rw [if_pos h2] at h; cases h
      · rw [if_neg h2] at h
        by_cases h3 : ((me.groupLetter == 'B' && decide (me.ren < 19/10))
            || (me.groupLetter == 'A' && decide (2 < me.groupNum))
            || me == elNi) = true
        · rw [if_pos h3] at h; cases h
        · rw [if_neg h3] at h
          by_cases h4 : (me.groupLetter == 'B' && decide (19/10 ≤ me.ren)) = true
          · rw [if_pos h4] at h; cases h
          · rw [if_neg h4] at h; cases h
  · rw [if_neg hm] at h
    rw [← Except.error.inj h]
    rfl

/-- Bypass soundness of the weak-electrolyte restriction: if the
raising run fails with a restriction exception, the bypassed run
returns `False` (instead of raising). -/
theorem wer_bypass (o : Oracles) :
    ∀ (ps : List Particle) (e : Exc),
      weakElectrolyteRestriction o ps true = .error e →
      isRestrictionExc e = true →
      weakElectrolyteRestriction o ps false = .ok false := by
  intro ps
  induction ps with
  | nil => intro e _ _; rfl
  | cons p rest ih =>
      intro e h hr
      unfold weakElectrolyteRestriction at h ⊢
      by_cases hw : peq p waterP = true
      · rw [if_pos hw] at h; cases h
      · rw [if_neg hw] at h ⊢
        by_cases hg : isGas p = true
        · rw [if_pos hg] at h; cases h
        · rw [if_neg hg] at h ⊢
          revert h
          cases hss : stSolubility o p with
          | error e2 =>
              intro h
              simp only [except_bind_err] at h
              rw [Except.error.inj h] at hss
              rw [stSolubility_not_restriction o p e hss] at hr
              cases hr
          | ok s =>
              intro h
              simp only [except_bind_ok] at h ⊢
              by_cases hns : (s == "NS" || s == "SS") = true
              · rw [if_pos hns] at h; cases h
              · rw [if_neg hns] at h ⊢
                exact ih e h hr

/-- The `(Molecule, Simple)` core of the metal-activity restriction
never raises a restriction exception when `raise_exception` is off. -/
theorem marMolSimple_noraise_not_restriction (o : Oracles) (cat : IonData)
    (me : Element) (e : Exc)
    (h : marMolSimple o cat me false = .error e) :
    isRestrictionExc e = false := by
  unfold marMolSimple at h
  revert h
  cases hsi : simpleOfIon cat.comp with
  | error e2 =>
      intro h
      simp only [except_bind_err] at h
      rw [← Except.error.inj h]
      unfold simpleOfIon at hsi
      revert hsi
      rcases cat.comp with _ | ⟨⟨e3, n⟩, _ | t⟩ <;> intro hsi <;>
        cases hsi <;> rfl
  | ok ms =>
      intro h
      simp only [except_bind_ok] at h
      cases ms with
      | simple mse msi =>
          revert h
          cases hma : o.moreActive mse me with
          | error e2 =>
              intro h
              simp only [hma, except_mapError_err, except_bind_err] at h
              rw [← Except.error.inj h]
              exact masErr_not_restriction e2
          | ok act =>
              intro h
              simp only [hma, except_mapError_ok, except_bind_ok] at h
              by_cases ha : (act == me) = true
              · rw [if_pos ha] at h; cases h
              · rw [if_neg ha] at h
                simp only [Bool.false_eq_true, if_false] at h
                cases h
      | ion d => rw [← Except.error.inj h]; rfl
      | molecule c a => rw [← Except.error.inj h]; rfl
      | iongroup c a ci ai => rw [← Except.error.inj h]; rfl
      | elementary s q => rw [← Except.error.inj h]; rfl

/-- Bypass soundness of the metal-activity restriction. -/
theorem mar_bypass (o : Oracles) (sub metal : Particle) (e : Exc)
    (h : metalActivityRestriction o sub metal true = .error e)
    (hr : isRestrictionExc e = true) :
    ∃ b, metalActivityRestriction o sub metal false = .ok b := by
  cases sub with
  | molecule cat an =>
      cases metal with
      | simple me i =>
          simp only [metalActivityRestriction] at h ⊢
          unfold marMolSimple at h ⊢
          revert h
          cases hsi : simpleOfIon cat.comp with
          | error e2 =>
              intro h
              simp only [except_bind_err] at h
              rw [Except.error.inj h] at hsi
              have hnr : isRestrictionExc e = false := by
                unfold simpleOfIon at hsi
                revert hsi
                rcases cat.comp with _ | ⟨⟨e3, n⟩, _ | t⟩ <;> intro hsi <;>
                  cases hsi <;> rfl
              rw [hnr] at hr
              cases hr
          | ok ms =>
              intro h
              simp only [except_bind_ok] at h ⊢
              cases ms with
              | simple mse msi =>
                  revert h
                  cases hma : o.moreActive mse me with
                  | error e2 =>
                      intro h
                      simp only [hma, except_mapError_err, except_bind_err] at h
                      rw [← Except.error.inj h, masErr_not_restriction e2] at hr
                      cases hr
                  | ok act =>
                      intro h
                      simp only [hma, except_mapError_ok, except_bind_ok] at h ⊢
                      by_cases ha : (act == me) = true
                      · rw [if_pos ha] at h; cases h
                      · rw [if_neg ha] at h ⊢
                        refine ⟨false, ?_⟩
                        simp only [Bool.false_eq_true, if_false]
              | ion d => cases (Except.error.inj h) ▸ hr
              | molecule c a => cases (Except.error.inj h) ▸ hr
              | iongroup c a ci ai => cases (Except.error.inj h) ▸ hr
              | elementary s q => cases (Except.error.inj h) ▸ hr
      | molecule c2 a2 => cases (Except.error.inj h) ▸ hr
      | ion d => cases (Except.error.inj h) ▸ hr
      | iongroup c a ci ai => cases (Except.error.inj h) ▸ hr
      | elementary s q => cases (Except.error.inj h) ▸ hr
  | simple se si =>
      cases metal with
      | molecule cat an =>
          simp only [metalActivityRestriction] at h
          rw [marMolSimple_noraise_not_restriction o cat se e h] at hr
          cases hr
      | simple m2 i2 => cases (Except.error.inj h) ▸ hr
      | ion d => cases (Except.error.inj h) ▸ hr
      | iongroup c a ci ai => cases (Except.error.inj h) ▸ hr
      | elementary s q => cases (Except.error.inj h) ▸ hr
  | ion d => cases (Except.error.inj h) ▸ hr
  | iongroup c a ci ai => cases (Except.error.inj h) ▸ hr
  | elementary s q => cases (Except.error.inj h) ▸ hr

/-- Bypass soundness of the metal-and-water restriction. -/
theorem maw_bypass :
    ∀ (ps : List Particle) (e : Exc),
      metalAndWaterRestriction ps true = .error e →
      isRestrictionExc e = true →
      metalAndWaterRestriction ps false = .ok false := by
  intro ps
  induction ps with
  | nil =>
      intro e h hr
      rw [← Except.error.inj h] at hr
      cases hr
  | cons p rest ih =>
      intro e h hr
      unfold metalAndWaterRestriction at h ⊢
      cases hsc : simpleClassP p with
      | error e2 =>
          simp only [hsc, except_bind_err] at h
          rw [← Except.error.inj h] at hr
          have hnr : isRestrictionExc e2 = false := by
            revert hsc
            cases p <;> intro hsc <;> unfold simpleClassP at hsc <;>
              cases hsc <;> rfl
          rw [hnr] at hr
          cases hr
      | ok sc =>
          simp only [hsc, except_bind_ok] at h ⊢
          by_cases hb : (sc == "base") = true
          · rw [if_pos hb] at h ⊢
            cases p with
            | molecule cat an =>
                cases hce : cationFirstElement cat with
                | error e2 =>
                    simp only [hce, except_bind_err] at h
                    rw [← Except.error.inj h] at hr
                    have hnr : isRestrictionExc e2 = false := by
                      unfold cationFirstElement at hce
                      revert hce
                      rcases cat.comp with _ | ⟨⟨e3, n⟩, t⟩ <;> intro hce <;>
                        cases hce <;> rfl
                    rw [hnr] at hr
                    cases hr
                | ok me =>
                    simp only [hce, except_bind_ok] at h ⊢
                    cases hact : activitySt me with
                    | error e2 =>
                        simp only [hact, except_bind_err] at h
                        rw [Except.error.inj h] at hact
                        rw [activitySt_error_not_restriction me e hact] at hr
                        cases hr
                    | ok act =>
                        simp only [hact, except_bind_ok] at h ⊢
                        by_cases ha : (act == "active") = true
                        · rw [if_pos ha] at h; cases h
                        · rw [if_neg ha] at h ⊢
                          rfl
            | simple e2 i => cases (Except.error.inj h) ▸ hr
            | ion d => cases (Except.error.inj h) ▸ hr
            | iongroup c a ci ai => cases (Except.error.inj h) ▸ hr
            | elementary s q => cases (Except.error.inj h) ▸ hr
          · rw [if_neg hb] at h ⊢
            exact ih e h hr

/-- Bypass soundness of every restriction-dict entry: when the raising
run fails with a restriction exception, the bypassed run succeeds. -/
theorem runRestriction_bypass (o : Oracles) (code : RestrCode)
    (ps : List Particle) (e : Exc)
    (h : runRestriction o code ps true = .error e)
    (hr : isRestrictionExc e = true) :
    ∃ b, runRestriction o code ps false = .ok b := by
  cases code with
  | noneR => cases h
  | wer => exact ⟨false, wer_bypass o ps e h hr⟩
  | maw => exact ⟨false, maw_bypass ps e h hr⟩
  | mar =>
      unfold runRestriction at h ⊢
      match ps, h with
      | [a, b], h => exact mar_bypass o a b e h hr
      | [], h => cases (Except.error.inj h) ▸ hr
      | [a], h => cases (Except.error.inj h) ▸ hr
      | a :: b :: c :: t, h => cases (Except.error.inj h) ▸ hr

/-- A failed labelling exposes a reagent whose class function raised. -/
theorem labelsOf_error_mem (cf : Particle → Except Exc String) :
    ∀ (rs : List Particle) (e : Exc), labelsOf cf rs = .error e →
      ∃ r ∈ rs, cf r = .error e := by
  intro rs
  induction rs with
  | nil => intro e h; cases h
  | cons r rest ih =>
      intro e h
      unfold labelsOf at h
      cases hc : cf r with
      | error e2 =>
          simp only [hc, except_map_err, except_bind_err] at h
          rw [Except.error.inj h] at hc
          exact ⟨r, by simp, hc⟩
      | ok l =>
          simp only [hc, except_map_ok, except_bind_ok] at h
          cases hrest : labelsOf cf rest with
          | error e2 =>
              simp only [hrest, except_bind_err] at h
              rw [Except.error.inj h] at hrest
              obtain ⟨r2, hm, hr2⟩ := ih e hrest
              exact ⟨r2, by simp [hm], hr2⟩
          | ok ls =>
              simp only [hrest, except_bind_ok] at h
              cases h

/-- C5: whenever the unbypassed `RPT.predict` call raises one of the
three restriction exceptions, the call with
`ignore_restrictions=True` raises nothing and returns the
mechanism product tuple.  (The two side conditions record that the
class functions and mechanisms of the package never raise
restriction exceptions themselves — in the source those exceptions
are raised only inside the restriction functions.) -/
theorem C5_restriction_bypass (o : Oracles) (dd : List String → Option MR)
    (cf : Particle → Except Exc String) (rs : List Particle) (e : Exc)
    (hclass : ∀ r e2, cf r = .error e2 → isRestrictionExc e2 = false)
    (hmech : ∀ sig mr, dd sig = some mr →
      ∀ e2, mr.mech rs = .error e2 → isRestrictionExc e2 = false)
    (hfail : predict o dd cf rs false = .error e)
    (hre : isRestrictionExc e = true) :
    ∃ sig mr ps, signatureOf cf rs = .ok sig ∧ dd sig = some mr ∧
      mr.mech rs = .ok ps ∧ predict o dd cf rs true = .ok ps := by
  unfold predict at hfail
  cases hsig : signatureOf cf rs with
  | error e2 =>
      simp only [hsig, except_bind_err] at hfail
      rw [Except.error.inj hfail] at hsig
      unfold signatureOf at hsig
      cases hl : labelsOf cf rs with
      | error e3 =>
          simp only [hl, except_map_err] at hsig
          rw [Except.error.inj hsig] at hl
          obtain ⟨r, _, hre2⟩ := labelsOf_error_mem cf rs e hl
          rw [hclass r e hre2] at hre
          cases hre
      | ok ls =>
          simp only [hl, except_map_ok] at hsig
          cases hsig
  | ok sig =>
      simp only [hsig, except_bind_ok] at hfail
      cases hdd : dd sig with
      | none =>
          simp only [hdd] at hfail
          rw [← Except.error.inj hfail] at hre
          cases hre
      | some mr =>
          simp only [hdd] at hfail
          cases hm : mr.mech rs with
          | error e2 =>
              simp only [hm, except_bind_err] at hfail
              rw [Except.error.inj hfail] at hm
              rw [hmech sig mr hdd e hm] at hre
              cases hre
          | ok ps =>
              simp only [hm, except_bind_ok] at hfail
              cases hrun : runRestriction o mr.restr ps true with
              | ok b =>
                  simp only [Bool.not_false, hrun, except_bind_ok] at hfail
                  cases hfail
              | error e2 =>
                  simp only [Bool.not_false, hrun, except_bind_err] at hfail
                  rw [Except.error.inj hfail] at hrun
                  obtain ⟨b, hb⟩ := runRestriction_bypass o mr.restr ps e hrun hre
                  refine ⟨sig, mr, ps, rfl, hdd, hm, ?_⟩
                  unfold predict
                  simp only [hsig, except_bind_ok, hdd, hm, Bool.not_true, hb]

/- A concrete instance for the C5 witness: a one-row decision dict
whose mechanism returns a soluble salt, so the unbypassed call raises
`WeakElectrolyteNotFound`. -/

/-- The soluble salt `NaCl` used by the C5 witness mechanism. -/
def w5prod : Particle := .molecule ⟨[(elNa, 1)], 1⟩ ⟨[(elCl, 1)], -1⟩

/-- Oracles for the C5 witness: everything soluble, everything found. -/
def w5o : Oracles := ⟨fun _ _ => .ok "S", fun a _ => .ok a, fun _ _ => true⟩

/-- The single decision row of the C5 witness. -/
def w5mr : MR := ⟨fun _ => .ok [w5prod], .wer⟩

/-- The decision dict of the C5 witness. -/
def w5dd : List String → Option MR :=
  fun sig => if sig = ["salt"] then some w5mr else none

/-- The class function of the C5 witness. -/
def w5cf : Particle → Except Exc String := fun _ => .ok "salt"

/-- Witness for `C5_restriction_bypass` at the `w5` instance. -/
theorem C5_restriction_bypass_witness :
    ∃ sig mr ps, signatureOf w5cf [w5prod] = .ok sig ∧ w5dd sig = some mr ∧
      mr.mech [w5prod] = .ok ps ∧
      predict w5o w5dd w5cf [w5prod] true = .ok ps := by
  refine C5_restriction_bypass w5o w5dd w5cf [w5prod] .weakElectrolyteNotFound
    ?_ ?_ ?_ rfl
  · intro r e2 h
    cases h
  · intro sig mr hmr e2 hm
    unfold w5dd at hmr
    split at hmr
    · rw [← Option.some.inj hmr] at hm
      exact absurd hm (by simp [w5mr])
    · cases hmr
  · with_unfolding_all decide

/-! ## C8 -/

/-- C8: the swapped-argument branch of `metal_activity_restriction`
recurses without forwarding `raise_exception`, so a
`(Simple, Molecule)` call with `raise_exception=True` (1) never raises
`LessActiveMetalReagent`, (2) returns `False` when the simple metal is
the less active one, and (3) `RPT.predict` with restrictions *not*
bypassed consequently returns the mechanism products as if the
restriction had passed. -/
theorem C8_swapped_args_drop_raise_flag :
    (∀ (o : Oracles) (e : Element) (i : Nat) (cat an : IonData) (ex : Exc),
      metalActivityRestriction o (.simple e i) (.molecule cat an) true =
        .error ex → ex ≠ .lessActiveMetalReagent) ∧
    (∀ (o : Oracles) (e : Element) (i : Nat) (cat an : IonData)
        (me : Element) (mi : Nat) (x : Element),
      simpleOfIon cat.comp = .ok (.simple me mi) →
      o.moreActive me e = .ok x → x ≠ e →
      metalActivityRestriction o (.simple e i) (.molecule cat an) true =
        .ok false) ∧
    (∀ (o : Oracles) (dd : List String → Option MR)
        (cf : Particle → Except Exc String) (rs : List Particle)
        (sig : List String) (mr : MR) (e : Element) (i : Nat)
        (cat an : IonData) (b : Bool),
      signatureOf cf rs = .ok sig → dd sig = some mr → mr.restr = .mar →
      mr.mech rs = .ok [.simple e i, .molecule cat an] →
      marMolSimple o cat e false = .ok b →
      predict o dd cf rs false = .ok [.simple e i, .molecule cat an]) := by
  refine ⟨?_, ?_, ?_⟩
  · intro o e i cat an ex hex hcontra
    have hcore : marMolSimple o cat e false = .error ex := hex
    have := marMolSimple_noraise_not_restriction o cat e ex hcore
    rw [hcontra] at this
    cases this
  · intro o e i cat an me mi x hsi hma hne
    show marMolSimple o cat e false = .ok false
    unfold marMolSimple
    simp only [hsi, except_bind_ok, hma, except_mapError_ok]
    have hxe : ¬ ((x == e) = true) := by simpa using hne
    rw [if_neg hxe]
    rfl
  · intro o dd cf rs sig mr e i cat an b hs hdd hrestr hmech hmar
    unfold predict
    simp only [hs, except_bind_ok, hdd, hmech, hrestr, Bool.not_false]
    show (metalActivityRestriction o (.simple e i) (.molecule cat an) true >>=
      fun _ => Except.ok [Particle.simple e i, Particle.molecule cat an]) = _
    show (marMolSimple o cat e false >>=
      fun _ => Except.ok [Particle.simple e i, Particle.molecule cat an]) = _
    simp only [hmar, except_bind_ok]

/- The concrete instance for the C8 witness: the mechanism proposes the
free metal `Cu` and the molecule `NaCl`, and the activity oracle names
the molecule metal (`Na`) the more active one, so the unswapped
restriction would raise — yet predict returns the products. -/

/-- C8 witness oracles: `more_active` returns its first argument (the
molecule metal), i.e. the simple metal is the less active one. -/
def w8o : Oracles := ⟨fun _ _ => .ok "S", fun a _ => .ok a, fun _ _ => true⟩

/-- C8 witness decision row: a constant mechanism paired with the
metal-activity restriction. -/
def w8mr : MR :=
  ⟨fun _ => .ok [.simple elCu 1, .molecule ⟨[(elNa, 1)], 1⟩ ⟨[(elCl, 1)], -1⟩],
    .mar⟩

/-- C8 witness decision dict. -/
def w8dd : List String → Option MR :=
  fun sig => if sig = ["m"] then some w8mr else none

/-- C8 witness class function. -/
def w8cf : Particle → Except Exc String := fun _ => .ok "M"

/-- Witness for `C8_swapped_args_drop_raise_flag`: the predict-level
conjunct applied at the `w8` instance. -/
theorem C8_swapped_args_drop_raise_flag_witness :
    predict w8o w8dd w8cf [waterP] false =
      .ok [.simple elCu 1, .molecule ⟨[(elNa, 1)], 1⟩ ⟨[(elCl, 1)], -1⟩] :=
  C8_swapped_args_drop_raise_flag.2.2 w8o w8dd w8cf [waterP] ["m"] w8mr
    elCu 1 ⟨[(elNa, 1)], 1⟩ ⟨[(elCl, 1)], -1⟩ false
    (by with_unfolding_all decide)
    (by with_unfolding_all rfl) rfl rfl
    (by with_unfolding_all decide)

/-! ## C7 -/

/-- Pointwise lookup agreement follows from Python dict equality. -/
theorem pyDictEq_lookup_eq {c1 c2 : Comp} (h : pyDictEq c1 c2 = true)
    (e : Element) : compLookup c1 e = compLookup c2 e := by
  cases h1 : compLookup c1 e with
  | some v =>
      obtain ⟨kv, hm, hk, hv⟩ := compLookup_some_mem h1
      have h2 := pyDictEq_lookup_left h kv hm
      rw [hk, hv] at h2
      rw [h2]
  | none =>
      cases h2 : compLookup c2 e with
      | none => rfl
      | some w =>
          obtain ⟨kv, hm, hk, hv⟩ := compLookup_some_mem h2
          have h3 := pyDictEq_lookup_right h kv hm
          rw [hk] at h3
          rw [h3] at h1
          cases h1

/-- Two dicts disagreeing on some lookup are not `dict`-equal. -/
theorem pyDictEq_false_of_lookup_ne {c1 c2 : Comp} (e : Element)
    (hne : compLookup c1 e ≠ compLookup c2 e) : pyDictEq c1 c2 = false := by
  cases hp : pyDictEq c1 c2
  · rfl
  · exact absurd (pyDictEq_lookup_eq hp e) hne

/-- A lookup succeeds exactly when some entry has the key. -/
theorem compLookup_isSome_iff (c : Comp) (e2 : Element) :
    (compLookup c e2).isSome = true ↔ ∃ kv ∈ c, kv.1 = e2 := by
  unfold compLookup
  rw [Option.isSome_map']
  rw [List.find?_isSome]
  constructor
  · intro ⟨kv, hm, hk⟩
    exact ⟨kv, hm, of_decide_eq_true hk⟩
  · intro ⟨kv, hm, hk⟩
    exact ⟨kv, hm, decide_eq_true hk⟩

/-- `compAdd` guarantees an entry with the added key. -/
theorem compAdd_key_self (com : Comp) (e2 : Element) (n : Nat) :
    ∃ kv ∈ compAdd com e2 n, kv.1 = e2 := by
  unfold compAdd
  by_cases h : (com.any fun kv => kv.1 = e2) = true
  · rw [if_pos h]
    obtain ⟨kv, hm, hk⟩ := List.any_eq_true.1 h
    have hk2 : kv.1 = e2 := of_decide_eq_true hk
    refine ⟨(kv.1, kv.2 + n), ?_, hk2⟩
    have hf : (fun kv : Element × Nat =>
        if kv.1 = e2 then (kv.1, kv.2 + n) else kv) kv = (kv.1, kv.2 + n) := by
      simp only [hk2, if_pos]
    rw [← hf]
    exact List.mem_map_of_mem _ hm
  · rw [if_neg h]
    exact ⟨(e2, n), by simp, rfl⟩

/-- `compAdd` keeps every existing key. -/
theorem compAdd_key_mono (com : Comp) (e2 e3 : Element) (n : Nat)
    (h : ∃ kv ∈ com, kv.1 = e3) : ∃ kv ∈ compAdd com e2 n, kv.1 = e3 := by
  obtain ⟨kv, hm, hk⟩ := h
  unfold compAdd
  by_cases hp : (com.any fun kv => kv.1 = e2) = true
  · rw [if_pos hp]
    by_cases hke : kv.1 = e2
    · refine ⟨(kv.1, kv.2 + n), ?_, hk⟩
      have hf : (fun kv : Element × Nat =>
          if kv.1 = e2 then (kv.1, kv.2 + n) else kv) kv = (kv.1, kv.2 + n) := by
        simp only [hke, if_pos]
      rw [← hf]
      exact List.mem_map_of_mem _ hm
    · refine ⟨kv, ?_, hk⟩
      have hf : (fun kv : Element × Nat =>
          if kv.1 = e2 then (kv.1, kv.2 + n) else kv) kv = kv := by
        simp only [hke, if_neg, if_false]
      rw [← hf]
      exact List.mem_map_of_mem _ hm
  · rw [if_neg hp]
    exact ⟨kv, List.mem_append_left _ hm, hk⟩

/-- The nitrogen key is present in the composition of any molecule
whose anion is `NO3`. -/
theorem nitrate_comp_has_N (cat : IonData) :
    (compLookup (moleculeComp cat NO3ion) elN).isSome = true := by
  rw [compLookup_isSome_iff]
  show ∃ kv ∈ compAdd (compAdd
    (updateComposition cat.comp (indices cat.charge (-1)).1 [])
    elN (1 * (indices cat.charge (-1)).2))
    elO (3 * (indices cat.charge (-1)).2), kv.1 = elN
  apply compAdd_key_mono
  exact compAdd_key_self _ _ _

/-- The charge sum of a positive cation and a negative anion with the
lcm-derived indices always vanishes (used by the `Molecule`
constructor check). -/
theorem indices_neutral (q m : Int) (hq : 0 < q) (hm : m < 0) :
    q * ((indices q m).1 : Int) + m * ((indices q m).2 : Int) = 0 := by
  unfold indices
  have h1 : (q.natAbs : Int) = q := by omega
  have h2 : (m.natAbs : Int) = -m := by omega
  have hdn : q.natAbs * (Nat.lcm q.natAbs m.natAbs / q.natAbs) =
      Nat.lcm q.natAbs m.natAbs :=
    Nat.mul_div_cancel' (Nat.dvd_lcm_left _ _)
  have hdm : m.natAbs * (Nat.lcm q.natAbs m.natAbs / m.natAbs) =
      Nat.lcm q.natAbs m.natAbs :=
    Nat.mul_div_cancel' (Nat.dvd_lcm_right _ _)
  have e1 : q * ((Nat.lcm q.natAbs m.natAbs / q.natAbs : Nat) : Int) =
      (Nat.lcm q.natAbs m.natAbs : Int) := by
    rw [← h1]
    exact_mod_cast hdn
  have e2 : (-m) * ((Nat.lcm q.natAbs m.natAbs / m.natAbs : Nat) : Int) =
      (Nat.lcm q.natAbs m.natAbs : Int) := by
    rw [← h2]
    exact_mod_cast hdm
  linarith [e1, e2]

/-- The `Molecule` constructor accepts any positive-cation /
negative-anion pair. -/
theorem mkMolecule_pos_neg (cc : Comp) (q : Int) (ac : Comp) (m : Int)
    (hq : 0 < q) (hm : m < 0) :
    mkMolecule ⟨cc, q⟩ ⟨ac, m⟩ = .ok (.molecule ⟨cc, q⟩ ⟨ac, m⟩) := by
  unfold mkMolecule
  rw [if_pos (indices_neutral q m hq hm)]

/-- `Ion.from_string` (single-element cation) under a successful
database lookup. -/
theorem mkIon_ok_single (db : Comp → Int → Bool) (e2 : Element) (k : Nat)
    (q : Int) (hq : q ≠ 0) (hdb : db [(e2, k)] q = true) :
    mkIon db [(e2, k)] q true = .ok ⟨[(e2, k)], q⟩ := by
  unfold mkIon
  rw [if_neg hq]
  have h2 : ¬ ((0 < q && 1 < ([(e2, k)] : Comp).length) = true) := by simp
  rw [if_neg h2]
  simp only [hdb, Bool.not_true, Bool.and_false, Bool.false_eq_true, if_false]

/-- `Ion.from_string` for a negatively charged anion under a successful
database lookup. -/
theorem mkIon_ok_neg (db : Comp → Int → Bool) (c : Comp) (q : Int)
    (hq : q < 0) (hdb : db c q = true) :
    mkIon db c q true = .ok ⟨c, q⟩ := by
  unfold mkIon
  rw [if_neg (by omega : ¬ q = 0)]
  have h2 : ¬ ((0 < q && 1 < c.length) = true) := by
    simp only [Bool.and_eq_true, decide_eq_true_eq]
    intro hcontra
    omega
  rw [if_neg h2]
  simp only [hdb, Bool.not_true, Bool.and_false, Bool.false_eq_true, if_false]

/-- C7: for a nitrate molecule (anion `NO3(-1)`) with single-element
cation `{e: k}` of positive charge `q`, under a database in which the
looked-up ions exist, `nitrate_decomposition` branches on the metal
activity class: an active metal yields exactly the two products metal
nitrite and oxygen; a middle-active metal the three products metal
oxide, `NO2` and oxygen; an inactive metal the three products free
metal, `NO2` and oxygen. -/
theorem C7_nitrate_decomposition (o : Oracles) (e : Element) (k : Nat)
    (q : Int) (hq : 0 < q) (act : String)
    (hact : activitySt e = .ok act)
    (hdb1 : o.ionExists [(e, k)] q = true)
    (hdb2 : o.ionExists [(elN, 1), (elO, 2)] (-1) = true)
    (hdb3 : o.ionExists [(elO, 1)] (-2) = true) :
    nitrateDecomposition o (.molecule ⟨[(e, k)], q⟩ NO3ion) =
      (if act == "active" then
        .ok [.molecule ⟨[(e, k)], q⟩ ⟨[(elN, 1), (elO, 2)], -1⟩,
          .simple elO 2]
      else if act == "middle active" then
        .ok [.molecule ⟨[(e, k)], q⟩ ⟨[(elO, 1)], -2⟩,
          .molecule ⟨[(elN, 1)], 4⟩ ⟨[(elO, 1)], -2⟩, .simple elO 2]
      else if act == "inactive" then
        .ok [simpleOfElement e,
          .molecule ⟨[(elN, 1)], 4⟩ ⟨[(elO, 1)], -2⟩, .simple elO 2]
      else .error .notSupposedToHappen) := by
  have hwater : peq (.molecule ⟨[(e, k)], q⟩ NO3ion) waterP = false := by
    have hwlook : compLookup (Particle.comp waterP) elN = none := by
      with_unfolding_all decide
    have hpd : pyDictEq (Particle.comp (.molecule ⟨[(e, k)], q⟩ NO3ion))
        (Particle.comp waterP) = false := by
      apply pyDictEq_false_of_lookup_ne elN
      intro hcontra
      have hlook := nitrate_comp_has_N ⟨[(e, k)], q⟩
      rw [show Particle.comp (.molecule ⟨[(e, k)], q⟩ NO3ion) =
        moleculeComp ⟨[(e, k)], q⟩ NO3ion from rfl] at hcontra
      rw [hcontra, hwlook] at hlook
      cases hlook
    show (pyDictEq _ _ && _) = false
    rw [hpd]
    rfl
  have hsc : moleculeSimpleClass ⟨[(e, k)], q⟩ NO3ion = "acid" ∨
      moleculeSimpleClass ⟨[(e, k)], q⟩ NO3ion = "salt" := by
    unfold moleculeSimpleClass
    rw [hwater]
    simp only [Bool.false_eq_true, if_false]
    by_cases hpr : ionEq ⟨[(e, k)], q⟩ protonD = true
    · rw [if_pos hpr]
      exact Or.inl rfl
    · rw [if_neg hpr]
      rw [show ionEq NO3ion hydroxideD = false by with_unfolding_all decide]
      rw [show ionEq NO3ion oxygenD = false by with_unfolding_all decide]
      simp only [Bool.false_eq_true, if_false]
      right
      trivial
  have hsccheck : ((moleculeSimpleClass ⟨[(e, k)], q⟩ NO3ion != "acid") &&
      (moleculeSimpleClass ⟨[(e, k)], q⟩ NO3ion != "salt")) = false := by
    rcases hsc with hsc | hsc <;> rw [hsc] <;> rfl
  have hion1 : mkIon o.ionExists [(e, k)] q true = .ok ⟨[(e, k)], q⟩ :=
    mkIon_ok_single o.ionExists e k q (by omega) hdb1
  have hion2 : mkIon o.ionExists [(elN, 1), (elO, 2)] (-1) true =
      .ok ⟨[(elN, 1), (elO, 2)], -1⟩ :=
    mkIon_ok_neg o.ionExists _ _ (by omega) hdb2
  have hion3 : mkIon o.ionExists [(elO, 1)] (-2) true =
      .ok ⟨[(elO, 1)], -2⟩ :=
    mkIon_ok_neg o.ionExists _ _ (by omega) hdb3
  have hmol1 : moleculeFromParts o [(e, k)] q [(elN, 1), (elO, 2)] (-1) true =
      .ok (.molecule ⟨[(e, k)], q⟩ ⟨[(elN, 1), (elO, 2)], -1⟩) := by
    unfold moleculeFromParts
    simp only [hion1, hion2, except_bind_ok]
    exact mkMolecule_pos_neg _ _ _ _ hq (by omega)
  have hmol2 : moleculeFromParts o [(e, k)] q [(elO, 1)] (-2) true =
      .ok (.molecule ⟨[(e, k)], q⟩ ⟨[(elO, 1)], -2⟩) := by
    unfold moleculeFromParts
    simp only [hion1, hion3, except_bind_ok]
    exact mkMolecule_pos_neg _ _ _ _ hq (by omega)
  have hmol3 : moleculeFromParts o [(elN, 1)] 4 [(elO, 1)] (-2) false =
      .ok (.molecule ⟨[(elN, 1)], 4⟩ ⟨[(elO, 1)], -2⟩) := by
    with_unfolding_all rfl
  unfold nitrateDecomposition
  simp only [simpleClassP, except_bind_ok]
  rw [hsccheck]
  simp only [Bool.false_eq_true, if_false]
  rw [show ionEq NO3ion NO3ion = true by with_unfolding_all decide]
  simp only [Bool.not_true, Bool.false_eq_true, if_false]
  simp only [cationFirstElement, except_bind_ok]
  simp only [hact, except_bind_ok]
  simp only [hmol1, hmol2, hmol3, except_bind_ok]

/-- Witness for `C7_nitrate_decomposition`: the sodium nitrate
`NaNO3` with an all-yes database; sodium is classed active and the
products are sodium nitrite and oxygen. -/
theorem C7_nitrate_decomposition_witness :
    nitrateDecomposition
        ⟨fun _ _ => .ok "S", fun a _ => .ok a, fun _ _ => true⟩
        (.molecule ⟨[(elNa, 1)], 1⟩ NO3ion) =
      (if "active" == "active" then
        .ok [.molecule ⟨[(elNa, 1)], 1⟩ ⟨[(elN, 1), (elO, 2)], -1⟩,
          .simple elO 2]
      else if "active" == "middle active" then
        .ok [.molecule ⟨[(elNa, 1)], 1⟩ ⟨[(elO, 1)], -2⟩,
          .molecule ⟨[(elN, 1)], 4⟩ ⟨[(elO, 1)], -2⟩, .simple elO 2]
      else if "active" == "inactive" then
        .ok [simpleOfElement elNa,
          .molecule ⟨[(elN, 1)], 4⟩ ⟨[(elO, 1)], -2⟩, .simple elO 2]
      else .error .notSupposedToHappen) :=
  C7_nitrate_decomposition
    ⟨fun _ _ => .ok "S", fun a _ => .ok a, fun _ _ => true⟩
    elNa 1 1 (by omega) "active" (by with_unfolding_all decide)
    rfl rfl rfl

/-! ## C10 -/

/-- C10: the molecule built from the proton cation and the hydroxide
anion is classified as an oxide — not as an acid or a base — even
though its cation is the proton (the acid pattern) and its anion is
hydroxide (the base pattern), because the equality-with-water check
comes first. -/
theorem C10_water_simple_class :
    simpleClassP (.molecule protonD hydroxideD) = .ok "oxide" ∧
    peq (.molecule protonD hydroxideD) waterP = true ∧
    ionEq protonD protonD = true ∧
    ionEq hydroxideD hydroxideD = true ∧
    moleculeSimpleClass protonD hydroxideD ≠ "acid" ∧
    moleculeSimpleClass protonD hydroxideD ≠ "base" := by
  with_unfolding_all decide

end MiniChem
